import Mathlib

/-!
Verification development for `pac.py`, a pacman-repository dependency
resolver.  The Python source is shallowly embedded: Python attribute
values (which may be `None`, a string, or a tuple of strings) become the
`Attr` type; a `Package` object is its `__slots__` attribute table, a
fixed-key association list written and read by name exactly as
`setattr`/`getattr` do; `dict`s become association lists with
first-match lookup; raising an exception becomes returning
`Option.none` / `Except.error`.  Python object identity for `Package`
objects is `(repo index, package name)`: within one `Repo.packages`
dict a name denotes one object, and distinct repos hold distinct
objects.
-/

set_option autoImplicit false

namespace Pac

/-- A Python attribute value as used by `pac.py`: `None`, a string, or a
tuple of strings. -/
inductive Attr where
  | none
  | str (s : String)
  | tup (l : List String)
  deriving DecidableEq, Repr

/-- Iterating a Python value: a tuple yields its entries, a string yields
its characters (as 1-character strings), `None` raises `TypeError`
(modelled as `Option.none`). -/
def Attr.iter : Attr → Option (List String)
  | Attr.none => Option.none
  | Attr.str s => some (s.data.map Char.toString)
  | Attr.tup l => some l

/-- First-match association-list lookup, the model of Python `dict`
indexing (`d[k]`, present test `k in d`) and of slot reads. -/
def lookupA {κ α : Type} [DecidableEq κ] : List (κ × α) → κ → Option α
  | [], _ => Option.none
  | (k', a) :: rest, k => if k' = k then some a else lookupA rest k

/-- In-place update of the entry holding key `k`; no effect when the key
is absent (the caller checks presence first). -/
def updAssoc {κ α : Type} [DecidableEq κ] : List (κ × α) → κ → α → List (κ × α)
  | [], _, _ => []
  | (k', a) :: rest, k, v =>
    if k' = k then (k, v) :: rest else (k', a) :: updAssoc rest k v

/-- A `Package` object: its `__slots__` attribute table.  Every object
the program creates starts from `Package.mk0`, whose key list is exactly
`__slots__` (lines 70-79); `setattr` can only write those keys. -/
structure Package where
  attrs : List (String × Attr)
  deriving DecidableEq, Repr

/-- The slot names of `Package.__slots__`, in source order. -/
def slotNames : List String :=
  ["filename", "name", "version", "desc", "csize", "isize", "md5sum",
   "sha256sum", "pgpsig", "url", "license", "arch", "builddate", "packager",
   "replaces", "groups", "base", "depends", "makedepends", "checkdepends",
   "optdepends", "conflicts", "provides", "remote_url", "local_path"]

/-- `getattr(self, k)`: the slot's value, `none` when `k` is not a slot
of this object (`AttributeError`). -/
def Package.readSlot (p : Package) (k : String) : Option Attr :=
  lookupA p.attrs k

/-- `setattr(self, k, v)`: succeeds exactly when `k` is a slot of this
object, otherwise Python raises `AttributeError` (modelled `none`). -/
def Package.setSlot (p : Package) (k : String) (v : Attr) : Option Package :=
  if (lookupA p.attrs k).isSome then some ⟨updAssoc p.attrs k v⟩
  else Option.none

/-- `Package.__init__(name)` with no buffers (lines 81-87): every slot
`None`, then the seven tuple-valued slots set to `()`, then `name`. -/
def Package.mk0 (nm : String) : Package :=
  ⟨[("filename", Attr.none), ("name", Attr.str nm), ("version", Attr.none),
    ("desc", Attr.none), ("csize", Attr.none), ("isize", Attr.none),
    ("md5sum", Attr.none), ("sha256sum", Attr.none), ("pgpsig", Attr.none),
    ("url", Attr.none), ("license", Attr.none), ("arch", Attr.none),
    ("builddate", Attr.none), ("packager", Attr.none),
    ("replaces", Attr.none), ("groups", Attr.tup []), ("base", Attr.none),
    ("depends", Attr.tup []), ("makedepends", Attr.tup []),
    ("checkdepends", Attr.tup []), ("optdepends", Attr.tup []),
    ("conflicts", Attr.tup []), ("provides", Attr.tup []),
    ("remote_url", Attr.none), ("local_path", Attr.none)]⟩

/-- A `Package.mk0` package with one slot overwritten (used to build the
concrete examples). -/
def pkgWith (nm k : String) (v : Attr) : Package :=
  ⟨updAssoc (Package.mk0 nm).attrs k v⟩

/-- The result of `alpm_parse`: a `dict` from field name to tuple of
values, in insertion order.  The key is `Option String` because the
"current field" starts out as Python `None` and a value line seen before
any `%NAME%` marker is stored under the `None` key. -/
abbrev Entries := List (Option String × List String)

/-- `entries[last_key] = entries.get(last_key, tuple()) + (line,)`:
update in place if the key exists (a Python dict keeps the original
position), else append a new entry. -/
def updEntries : Entries → Option String → String → Entries
  | [], k, v => [(k, [v])]
  | (k', vs) :: rest, k, v =>
    if k' = k then (k', vs ++ [v]) :: rest else (k', vs) :: updEntries rest k v

/-- Python `str.strip()` whitespace (the ASCII part). -/
def isWs (c : Char) : Bool :=
  c = ' ' ∨ c = '\t' ∨ c = '\n' ∨ c = '\r' ∨ c = '\x0b' ∨ c = '\x0c'

/-- `line.strip()` at character level. -/
def pyStripChars (l : List Char) : List Char :=
  ((l.dropWhile isWs).reverse.dropWhile isWs).reverse

/-- The loop of `alpm_parse` (lines 26-35): strip each line, skip blanks,
a `%NAME%` line (first and last character both `%`) sets the current
field to `NAME` lower-cased, any other line is appended as a value under
the current field. -/
def alpmParseGo (lastKey : Option String) (entries : Entries) :
    List String → Entries
  | [] => entries
  | l :: ls =>
    match pyStripChars l.data with
    | [] => alpmParseGo lastKey entries ls
    | c :: cs =>
      if c = '%' ∧ (c :: cs).getLast? = some '%' then
        alpmParseGo (some (String.mk (((c :: cs).drop 1).dropLast.map Char.toLower)))
          entries ls
      else alpmParseGo lastKey (updEntries entries lastKey (String.mk (c :: cs))) ls

/-- `alpm_parse(file)` (lines 23-37) on the file's decoded lines.  Note
that the Python function never raises: it returns the accumulated
entries whatever the input. -/
def alpm_parse (lines : List String) : Entries :=
  alpmParseGo Option.none [] lines

/-- `Package.parse_desc` (lines 93-98): for each parsed field, `groups`
receives the full value tuple, every other field its first value, via
`setattr`.  A `None` key (`setattr(self, None, ...)`, `TypeError`) or a
non-slot key (`AttributeError`) raises, modelled as `none`. -/
def Package.parse_desc (p : Package) : Entries → Option Package
  | [] => some p
  | (k, v) :: rest =>
    k.bind fun k' =>
      (if k' = "groups" then p.setSlot k' (Attr.tup v)
       else match v with
            | [] => Option.none
            | v0 :: _ => p.setSlot k' (Attr.str v0)).bind fun p₁ =>
        p₁.parse_desc rest

/-- `re.match('[^><=:]+', e)` at character level: the longest leading run
of characters outside `{'>', '<', '=', ':'}`. -/
def stripChars : List Char → List Char
  | [] => []
  | c :: cs =>
    if c = '>' ∨ c = '<' ∨ c = '=' ∨ c = ':' then [] else c :: stripChars cs

/-- `re.match('[^><=:]+', e).group(0)` (line 103): `none` when the match
fails, i.e. when the leading run is empty, in which case Python raises
`AttributeError` on the `None` match object. -/
def stripVersion (e : String) : Option String :=
  let r := stripChars e.data
  if r = [] then Option.none else some (String.mk r)

/-- `tuple(f e for e in v)` for an `Option`-valued `f`: the first failing
element aborts the whole tuple. -/
def mapOpt {α β : Type} (f : α → Option β) : List α → Option (List β)
  | [] => some []
  | a :: l =>
    match f a with
    | Option.none => Option.none
    | some b => (mapOpt f l).map (b :: ·)

/-- `Package.parse_deps` (lines 100-104): each value tuple is mapped
through the version-stripping regex, then stored via `setattr` under the
same field name. -/
def Package.parse_deps (p : Package) : Entries → Option Package
  | [] => some p
  | (k, v) :: rest =>
    (mapOpt stripVersion v).bind fun v' =>
      k.bind fun k' =>
        (p.setSlot k' (Attr.tup v')).bind fun p₁ =>
          p₁.parse_deps rest

/-- A `Repo` (one catalog): its `packages` dict plus the `groups` and
`provides` indices.  The path/server fields of the Python class are I/O
configuration and carry no resolution behavior beyond identity. -/
structure Repo where
  rname : String
  arch : String
  packages : List (String × Package)
  groups : List (String × List String)
  provides : List (String × List String)
  deriving DecidableEq, Repr

/-- `defaultdict(list)` append: `d[k].append(v)`.  An existing key keeps
its position; a fresh key is appended with the one-element list. -/
def idxAppend (m : List (String × List String)) (k : String) (v : String) :
    List (String × List String) :=
  match m with
  | [] => [(k, [v])]
  | (k', vs) :: rest =>
    if k' = k then (k', vs ++ [v]) :: rest else (k', vs) :: idxAppend rest k v

/-- The index-building loop of `Repo.initialize_db` (lines 159-164): for
every package, append its name under each of its `groups` entries and
each of its `provides` entries.  Reading a missing slot or iterating a
`None` attribute would raise, hence the `Option`. -/
def build_indices :
    List (String × Package) → List (String × List String) →
    List (String × List String) →
    Option (List (String × List String) × List (String × List String))
  | [], g, p => some (g, p)
  | (n, pkg) :: rest, g, p =>
    ((pkg.readSlot "groups").bind Attr.iter).bind fun gs =>
      ((pkg.readSlot "provides").bind Attr.iter).bind fun ps =>
        build_indices rest (gs.foldl (fun m x => idxAppend m x n) g)
          (ps.foldl (fun m x => idxAppend m x n) p)

/-- The state of a `Repo` right after `initialize_db` finished, given the
`packages` dict produced by the archive scan: empty indices filled by
the loop of lines 159-164. -/
def Repo.ofPackages (nm ar : String) (pkgs : List (String × Package)) :
    Option Repo :=
  (build_indices pkgs [] []).map fun gp =>
    { rname := nm, arch := ar, packages := pkgs, groups := gp.1,
      provides := gp.2 }

/-- Well-formedness a repo enjoys after `initialize_db`: every value list
of either index is non-empty and mentions only keys of `packages`. -/
def Repo.WF (r : Repo) : Prop :=
  (∀ kv ∈ r.groups, kv.2 ≠ [] ∧ ∀ n ∈ kv.2, (lookupA r.packages n).isSome) ∧
  (∀ kv ∈ r.provides, kv.2 ≠ [] ∧ ∀ n ∈ kv.2, (lookupA r.packages n).isSome)

instance (r : Repo) : Decidable r.WF := by
  unfold Repo.WF; infer_instance

/-- A Python `Package` object of a mirror: its identity
`(repo index, package name)` together with the package record it
denotes. -/
abbrev PObj := (Nat × String) × Package

/-- Errors `pac.py` can raise during resolution.  `keyError` is
`repo.packages[p]` on a missing key, `notFound` the
`ValueError("%s not found in any repo")` of `resolve_name`, `typeError`
iterating a `None` attribute, `attrError` reading a missing slot, and
`fuelOut` a sentinel shown below (in `resolveDepsAux_no_fuelOut`) to be
unreachable. -/
inductive RErr where
  | keyError (k : String)
  | notFound (s : String)
  | typeError
  | attrError
  | fuelOut
  deriving DecidableEq, Repr

instance {ε α : Type} [DecidableEq ε] [DecidableEq α] :
    DecidableEq (Except ε α) := fun a b =>
  match a, b with
  | Except.ok a, Except.ok b =>
    if h : a = b then isTrue (by rw [h])
    else isFalse (by intro hc; injection hc; exact h (by assumption))
  | Except.ok _, Except.error _ => isFalse (by intro hc; injection hc)
  | Except.error _, Except.ok _ => isFalse (by intro hc; injection hc)
  | Except.error e, Except.error f =>
    if h : e = f then isTrue (by rw [h])
    else isFalse (by intro hc; injection hc; exact h (by assumption))

/-- A Python `set` of Package objects, modelled as a duplicate-free list
in insertion order (iteration order of a Python set is arbitrary; every
statement proved about it is order-independent). -/
abbrev PSet := List PObj

/-- `s.add(x)` on a Python set. -/
def setAdd (acc : PSet) (x : PObj) : PSet :=
  if x ∈ acc then acc else acc ++ [x]

/-- `s.update(xs)` on a Python set. -/
def setUpdate (acc : PSet) (xs : List PObj) : PSet :=
  xs.foldl setAdd acc

/-- `packages.update(repo.packages[p] for p in found_packages)`: each name
is dereferenced through the repo's `packages` dict; a missing key raises
`KeyError`. -/
def derefList (i : Nat) (r : Repo) : List String → Except RErr (List PObj)
  | [] => Except.ok []
  | p :: ps =>
    match lookupA r.packages p with
    | Option.none => Except.error (RErr.keyError p)
    | some pkg =>
      match derefList i r ps with
      | Except.ok objs => Except.ok (((i, p), pkg) :: objs)
      | Except.error e => Except.error e

/-- `enumerate`: pair each list element with its position, starting at
`n`. -/
def enumL {α : Type} : Nat → List α → List (Nat × α)
  | _, [] => []
  | n, a :: l => (n, a) :: enumL (n + 1) l

/-- A `Mirror`: the ordered collection of repos
(`self.repos.values()` iterates a `dict` in insertion order). -/
structure Mirror where
  repos : List Repo
  deriving DecidableEq, Repr

/-- The `if/elif/elif` chain of `resolve_name` (lines 198-203): the value
of `found_packages` after one repo is examined — `[pkgname]` on a
package-name hit, else the provides entry, else the groups entry, else
the incoming value unchanged. -/
def nextFound (r : Repo) (s : String) (found : Option (List String)) :
    Option (List String) :=
  if (lookupA r.packages s).isSome then some [s]
  else
    match lookupA r.provides s with
    | some l => some l
    | Option.none =>
      match lookupA r.groups s with
      | some l => some l
      | Option.none => found

/-- The loop of `Mirror.resolve_name` (lines 196-206), carried state
`(packages, found_packages)`.  `found_packages` is consumed and reset
only when truthy (a non-empty list). -/
def resolveNameAux (s : String) :
    List (Nat × Repo) → PSet → Option (List String) → Except RErr PSet
  | [], acc, _ => Except.ok acc
  | (i, r) :: rest, acc, found =>
    match nextFound r s found with
    | some (p :: ps) =>
      match derefList i r (p :: ps) with
      | Except.ok objs => resolveNameAux s rest (setUpdate acc objs) Option.none
      | Except.error e => Except.error e
    | _ => resolveNameAux s rest acc (nextFound r s found)

/-- `Mirror.resolve_name` (lines 194-210).  `important` is the `strict`
flag: with no accumulated package and `important` true, the
`ValueError` (`notFound`) is raised. -/
def Mirror.resolve_name (m : Mirror) (pkgname : String) (important : Bool) :
    Except RErr PSet :=
  match resolveNameAux pkgname (enumL 0 m.repos) [] Option.none with
  | Except.error e => Except.error e
  | Except.ok packages =>
    if packages ≠ [] ∨ important = false then Except.ok packages
    else Except.error (RErr.notFound pkgname)

/-- The per-repo match set as the spec words it: package-name match
first, else provides, else groups (`resolve_name`'s `if/elif/elif`). -/
def Repo.matchSet (r : Repo) (s : String) : Option (List String) :=
  if (lookupA r.packages s).isSome then some [s]
  else
    match lookupA r.provides s with
    | some l => some l
    | Option.none => lookupA r.groups s

/-- Dereference a list of names in a repo, skipping missing keys — equal
to the successful `derefList` when no key is missing. -/
def derefPure (i : Nat) (r : Repo) (ns : List String) : List PObj :=
  ns.filterMap fun p => (lookupA r.packages p).map fun pkg => ((i, p), pkg)

/-- Modelled from the spec: "Union the dereferenced Packages (by package
name → Package in that Catalog) from every Catalog where a match set was
found, across ALL catalogs". -/
def unionResolveAux (s : String) : List (Nat × Repo) → Finset PObj
  | [] => ∅
  | (i, r) :: rest =>
    (match r.matchSet s with
     | some l => (derefPure i r l).toFinset
     | Option.none => ∅) ∪ unionResolveAux s rest

/-- The spec-side union of all per-catalog match results. -/
def Mirror.unionResolve (m : Mirror) (s : String) : Finset PObj :=
  unionResolveAux s (enumL 0 m.repos)

/-- Every `(repo index, name, package)` object of a mirror. -/
def Mirror.allObjsList (m : Mirror) : List PObj :=
  (enumL 0 m.repos).flatMap fun ir =>
    ir.2.packages.map fun np => ((ir.1, np.1), np.2)

/-- Every object of a mirror, as a finite set. -/
def Mirror.allObjs (m : Mirror) : Finset PObj :=
  m.allObjsList.toFinset

/-- The inner loop `for d in self.resolve_name(d_name): packages.append(d)`
over a list of dependency names: all resolved objects, in order. -/
def Mirror.resolveMany (m : Mirror) (imp : Bool) :
    List String → Except RErr (List PObj)
  | [] => Except.ok []
  | n :: ns =>
    match m.resolve_name n imp with
    | Except.error e => Except.error e
    | Except.ok fs =>
      match m.resolveMany imp ns with
      | Except.ok l => Except.ok (fs ++ l)
      | Except.error e => Except.error e

/-- Expanding one dequeued package in `resolve_deps` (lines 222-229):
resolve every `depends` name strictly and, when `optdepends` was
requested, every `optdepends` name leniently; the results are appended
to the queue in that order. -/
def Mirror.expandPkg (m : Mirror) (optdep : Bool) (p : PObj) :
    Except RErr (List PObj) :=
  match (p.2.readSlot "depends").bind Attr.iter with
  | Option.none => Except.error RErr.typeError
  | some depNames =>
    match m.resolveMany true depNames with
    | Except.error e => Except.error e
    | Except.ok ds =>
      if optdep then
        match (p.2.readSlot "optdepends").bind Attr.iter with
        | Option.none => Except.error RErr.typeError
        | some optNames =>
          match m.resolveMany false optNames with
          | Except.error e => Except.error e
          | Except.ok os => Except.ok (ds ++ os)
      else Except.ok ds

/-- The `while packages:` loop of `resolve_deps` (lines 215-229) with an
explicit fuel parameter; `resolveDepsAux_no_fuelOut` below shows the
fuel chosen by `Mirror.resolve_deps` is never exhausted, so the sentinel
is unreachable and the loop always terminates. -/
def Mirror.resolveDepsAux (m : Mirror) (optdep : Bool) :
    Nat → PSet → List PObj → Except RErr PSet
  | _, known, [] => Except.ok known
  | 0, _, _ :: _ => Except.error RErr.fuelOut
  | fuel + 1, known, p :: rest =>
    if p ∈ known then m.resolveDepsAux optdep fuel known rest
    else
      match m.expandPkg optdep p with
      | Except.error e => Except.error e
      | Except.ok new =>
        m.resolveDepsAux optdep fuel (setAdd known p) (rest ++ new)

/-- Length of a slot's iteration (0 when reading or iterating the slot
would raise, in which case the expansion never appends anything). -/
def slotIterLen (p : Package) (k : String) : Nat :=
  (((p.readSlot k).bind Attr.iter).getD []).length

/-- Upper bound on how many objects expanding `p` can append to the
queue. -/
def Mirror.cost (m : Mirror) (p : PObj) : Nat :=
  (slotIterLen p.2 "depends" + slotIterLen p.2 "optdepends") * m.allObjs.card

/-- Termination potential of a traversal state: queue length plus, for
every not-yet-visited object of `U`, one dequeue plus its expansion
bound. -/
def Mirror.phi (m : Mirror) (U : Finset PObj) (known : PSet)
    (queue : List PObj) : Nat :=
  queue.length + (U \ known.toFinset).sum fun u => 1 + m.cost u

/-- Fuel that `resolveDepsAux_no_fuelOut` proves sufficient for any seed
list. -/
def Mirror.suffFuel (m : Mirror) (seeds : List PObj) : Nat :=
  m.phi (m.allObjs ∪ seeds.toFinset) [] seeds

/-- `Mirror.resolve_deps` (lines 212-231): breadth-first closure over
`depends` (always) and `optdepends` (when requested), seeded by
`packages`, returning the visited set (the final
`tuple(known_packages)`). -/
def Mirror.resolve_deps (m : Mirror) (seeds : List PObj) (optdep : Bool) :
    Except RErr PSet :=
  m.resolveDepsAux optdep (m.suffFuel seeds) [] seeds

/-- Whether a resolution result is the (unreachable) fuel sentinel. -/
def isFuelOut : Except RErr PSet → Bool
  | Except.error RErr.fuelOut => true
  | _ => false

/-- Whether a name-resolution result is a `KeyError` raised while
dereferencing an index entry. -/
def isKeyError : Except RErr PSet → Bool
  | Except.error (RErr.keyError _) => true
  | _ => false

/-- The returned package set of a resolution result, when it succeeded. -/
def okSet : Except RErr PSet → Option (Finset PObj)
  | Except.ok l => some l.toFinset
  | Except.error _ => Option.none

/-- Boolean check that every name in an index's value lists is a key of
the packages dict. -/
def idxSubsetKeys (idx : List (String × List String))
    (pkgs : List (String × Package)) : Bool :=
  idx.all fun kv => kv.2.all fun n => (lookupA pkgs n).isSome


/-- A package whose attribute table's keys are exactly `__slots__` (true
of every package the program creates). -/
def Package.hasSchema (p : Package) : Prop :=
  p.attrs.map Prod.fst = slotNames

instance (p : Package) : Decidable p.hasSchema := by
  unfold Package.hasSchema; infer_instance

/-! ### Concrete example data (used by several claims) -/

/-- A package literally named `bash`, as two catalogs would each hold. -/
def pkgBash : Package := Package.mk0 "bash"

/-- `core/x86_64` holding `bash`. -/
def repoB0 : Repo :=
  { rname := "core", arch := "x86_64", packages := [("bash", pkgBash)],
    groups := [], provides := [] }

/-- `extra/x86_64` holding its own `bash`. -/
def repoB1 : Repo :=
  { rname := "extra", arch := "x86_64", packages := [("bash", pkgBash)],
    groups := [], provides := [] }

/-- Two catalogs that both contain a package named `bash`. -/
def m2 : Mirror := { repos := [repoB0, repoB1] }

/-- Package `a`, depending on `b`. -/
def pA : Package := pkgWith "a" "depends" (Attr.tup ["b"])

/-- Package `b`, depending on `a` (a dependency cycle with `pA`). -/
def pB : Package := pkgWith "b" "depends" (Attr.tup ["a"])

/-- One catalog with the two-package dependency cycle. -/
def repoAB : Repo :=
  { rname := "core", arch := "x86_64", packages := [("a", pA), ("b", pB)],
    groups := [], provides := [] }

/-- The cyclic mirror of claim C4. -/
def mAB : Mirror := { repos := [repoAB] }

/-- The `a` object of `mAB`. -/
def objA : PObj := ((0, "a"), pA)

/-- The `b` object of `mAB`. -/
def objB : PObj := ((0, "b"), pB)

/-- Package `x` with an unresolvable optional dependency. -/
def pX : Package := pkgWith "x" "optdepends" (Attr.tup ["nonexistent-pkg"])

/-- Package `y` with an unresolvable hard dependency. -/
def pY : Package := pkgWith "y" "depends" (Attr.tup ["nonexistent-pkg"])

/-- The catalog holding `x` and `y`. -/
def repoXY : Repo :=
  { rname := "core", arch := "x86_64", packages := [("x", pX), ("y", pY)],
    groups := [], provides := [] }

/-- The mirror of claim C6. -/
def mXY : Mirror := { repos := [repoXY] }

/-- The `x` object of `mXY`. -/
def objX : PObj := ((0, "x"), pX)

/-- The `y` object of `mXY`. -/
def objY : PObj := ((0, "y"), pY)

/-- A package literally named `foo`. -/
def pkgFoo : Package := Package.mk0 "foo"

/-- A different package `bar` declaring `provides: foo`. -/
def pkgBar : Package := pkgWith "bar" "provides" (Attr.tup ["foo"])

/-- The packages dict of the shadowing catalog. -/
def pkgsFoo : List (String × Package) := [("foo", pkgFoo), ("bar", pkgBar)]

/-- The shadowing catalog: `foo` is both a package name and a provided
capability of `bar` (this is `Repo.ofPackages "core" "x86_64" pkgsFoo`). -/
def repoFoo : Repo :=
  { rname := "core", arch := "x86_64", packages := pkgsFoo, groups := [],
    provides := [("foo", ["bar"])] }

/-- The mirror of claim C3. -/
def mFoo : Mirror := { repos := [repoFoo] }

/-! ### Association-list and slot lemmas -/

theorem lookupA_updAssoc_self {κ α : Type} [DecidableEq κ] :
    ∀ (l : List (κ × α)) (k : κ) (v : α), (lookupA l k).isSome →
      lookupA (updAssoc l k v) k = some v := by
  intro l k v h
  induction l with
  | nil => simp [lookupA] at h
  | cons kv rest ih =>
    obtain ⟨k', a⟩ := kv
    by_cases hk : k' = k
    · subst hk; simp [lookupA, updAssoc]
    · simp only [lookupA, updAssoc, if_neg hk] at h ⊢
      exact ih h

theorem lookupA_updAssoc_other {κ α : Type} [DecidableEq κ] :
    ∀ (l : List (κ × α)) (k k' : κ) (v : α), k' ≠ k →
      lookupA (updAssoc l k v) k' = lookupA l k' := by
  intro l k k' v hne
  induction l with
  | nil => simp [updAssoc]
  | cons kv rest ih =>
    obtain ⟨k₀, a⟩ := kv
    simp only [updAssoc]
    split_ifs with hk
    · subst hk
      simp only [lookupA]
      rw [if_neg fun h => hne h.symm, if_neg fun h => hne h.symm]
    · simp only [lookupA]
      by_cases hk' : k₀ = k'
      · rw [if_pos hk', if_pos hk']
      · rw [if_neg hk', if_neg hk']
        exact ih

theorem updAssoc_keys {κ α : Type} [DecidableEq κ] :
    ∀ (l : List (κ × α)) (k : κ) (v : α),
      (updAssoc l k v).map Prod.fst = l.map Prod.fst := by
  intro l k v
  induction l with
  | nil => rfl
  | cons kv rest ih =>
    obtain ⟨k₀, a⟩ := kv
    by_cases hk : k₀ = k
    · subst hk; simp [updAssoc]
    · simp [updAssoc, hk, ih]

theorem readSlot_setSlot_self (p p' : Package) (k : String) (v : Attr)
    (h : p.setSlot k v = some p') : p'.readSlot k = some v := by
  unfold Package.setSlot at h
  split_ifs at h with hs
  obtain rfl : (⟨updAssoc p.attrs k v⟩ : Package) = p' := by injection h
  exact lookupA_updAssoc_self p.attrs k v hs

theorem readSlot_setSlot_other (p p' : Package) (k : String) (v : Attr)
    (h : p.setSlot k v = some p') (k' : String) (hne : k' ≠ k) :
    p'.readSlot k' = p.readSlot k' := by
  unfold Package.setSlot at h
  split_ifs at h with hs
  obtain rfl : (⟨updAssoc p.attrs k v⟩ : Package) = p' := by injection h
  exact lookupA_updAssoc_other p.attrs k k' v hne

theorem setSlot_isSome_of_readSlot (p : Package) (k : String) (v : Attr)
    (h : (p.readSlot k).isSome) : (p.setSlot k v).isSome := by
  unfold Package.readSlot at h
  unfold Package.setSlot
  rw [if_pos h]
  rfl

theorem setSlot_keys (p p' : Package) (k : String) (v : Attr)
    (h : p.setSlot k v = some p') :
    p'.attrs.map Prod.fst = p.attrs.map Prod.fst := by
  unfold Package.setSlot at h
  split_ifs at h with hs
  obtain rfl : (⟨updAssoc p.attrs k v⟩ : Package) = p' := by injection h
  exact updAssoc_keys p.attrs k v

theorem lookupA_isSome_of_mem_keys {κ α : Type} [DecidableEq κ] :
    ∀ (l : List (κ × α)) (k : κ), k ∈ l.map Prod.fst →
      (lookupA l k).isSome := by
  intro l k hk
  induction l with
  | nil => simp at hk
  | cons kv rest ih =>
    obtain ⟨k₀, a⟩ := kv
    by_cases h0 : k₀ = k
    · simp [lookupA, h0]
    · simp only [List.map_cons, List.mem_cons] at hk
      rcases hk with hk | hk
      · exact absurd hk.symm h0
      · simp only [lookupA, if_neg h0]
        exact ih hk

theorem readSlot_isSome_of_schema (p : Package) (k : String)
    (hp : p.hasSchema) (hk : k ∈ slotNames) : (p.readSlot k).isSome := by
  unfold Package.hasSchema at hp
  unfold Package.readSlot
  exact lookupA_isSome_of_mem_keys p.attrs k (by rw [hp]; exact hk)

theorem hasSchema_setSlot (p p' : Package) (k : String) (v : Attr)
    (h : p.setSlot k v = some p') (hp : p.hasSchema) : p'.hasSchema := by
  unfold Package.hasSchema at hp ⊢
  rw [setSlot_keys p p' k v h, hp]

theorem mk0_hasSchema (nm : String) : (Package.mk0 nm).hasSchema := rfl

/-! ### `parse_desc` / `parse_deps` characterization -/

theorem mapOpt_stripVersion (l : List String)
    (h : ∀ a ∈ l, (stripVersion a).isSome) :
    mapOpt stripVersion l = some (l.map fun a => (stripVersion a).getD "") := by
  induction l with
  | nil => simp [mapOpt]
  | cons a l ih =>
    have ha := h a (by simp)
    rcases hfa : stripVersion a with _ | b
    · rw [hfa] at ha; simp at ha
    · rw [hfa] at ha
      simp [mapOpt, hfa, ih fun x hx => h x (by simp [hx])]

theorem parse_deps_preserve (k : String) :
    ∀ (es : Entries) (p p' : Package), (∀ kv ∈ es, kv.1 ≠ some k) →
      p.parse_deps es = some p' → p'.readSlot k = p.readSlot k := by
  intro es
  induction es with
  | nil =>
    intro p p' _ h
    simp only [Package.parse_deps, Option.some.injEq] at h
    rw [h]
  | cons kv rest ih =>
    intro p p' hk h
    obtain ⟨k₀, v₀⟩ := kv
    simp only [Package.parse_deps, Option.bind_eq_some'] at h
    obtain ⟨v', hm, k₁, hk₁, p₁, hs, h⟩ := h
    have h1 : k₁ ≠ k := by
      have := hk (k₀, v₀) (by simp)
      rw [hk₁] at this
      simpa using this
    rw [ih p₁ p' (fun kv hkv => hk kv (by simp [hkv])) h]
    exact readSlot_setSlot_other p p₁ k₁ (Attr.tup v') hs k
      fun hh => h1 hh.symm

theorem parse_desc_preserve (k : String) :
    ∀ (es : Entries) (p p' : Package), (∀ kv ∈ es, kv.1 ≠ some k) →
      p.parse_desc es = some p' → p'.readSlot k = p.readSlot k := by
  intro es
  induction es with
  | nil =>
    intro p p' _ h
    simp only [Package.parse_desc, Option.some.injEq] at h
    rw [h]
  | cons kv rest ih =>
    intro p p' hk h
    obtain ⟨k₀, v₀⟩ := kv
    simp only [Package.parse_desc, Option.bind_eq_some'] at h
    obtain ⟨k₁, hk₁, p₁, hs, h⟩ := h
    have h1 : k₁ ≠ k := by
      have := hk (k₀, v₀) (by simp)
      rw [hk₁] at this
      simpa using this
    rw [ih p₁ p' (fun kv hkv => hk kv (by simp [hkv])) h]
    split_ifs at hs with hg
    · exact readSlot_setSlot_other p p₁ k₁ (Attr.tup v₀) hs k
        fun hh => h1 hh.symm
    · rcases v₀ with _ | ⟨v0, vs⟩
      · exact absurd hs (by simp)
      · exact readSlot_setSlot_other p p₁ k₁ (Attr.str v0) hs k
          fun hh => h1 hh.symm


theorem nodup_keys_tail_ne {κ α : Type} (k₀ : κ) (v₀ : α)
    (rest : List (κ × α)) (hnd : (((k₀, v₀) :: rest).map Prod.fst).Nodup) :
    ∀ kv ∈ rest, kv.1 ≠ k₀ := by
  intro kv hkv hc
  simp only [List.map_cons, List.nodup_cons] at hnd
  exact hnd.1 (hc ▸ List.mem_map_of_mem Prod.fst hkv)

theorem parse_deps_spec :
    ∀ (es : Entries) (p : Package), p.hasSchema →
      (es.map Prod.fst).Nodup →
      (∀ kv ∈ es, ∃ k, kv.1 = some k ∧ k ∈ slotNames) →
      (∀ kv ∈ es, ∀ v ∈ kv.2, (stripVersion v).isSome) →
      ∃ p', p.parse_deps es = some p' ∧
        ∀ kv ∈ es, ∀ k, kv.1 = some k →
          p'.readSlot k =
            some (Attr.tup (kv.2.map fun v => (stripVersion v).getD "")) := by
  intro es
  induction es with
  | nil =>
    intro p _ _ _ _
    exact ⟨p, rfl, by simp⟩
  | cons kv rest ih =>
    obtain ⟨k₀, v₀⟩ := kv
    intro p hp hnd hks hvs
    obtain ⟨k₁, hk₁, hk₁s⟩ := hks (k₀, v₀) (by simp)
    have hm := mapOpt_stripVersion v₀ fun v hv => hvs (k₀, v₀) (by simp) v hv
    have hset : (p.setSlot k₁
        (Attr.tup (v₀.map fun v => (stripVersion v).getD ""))).isSome :=
      setSlot_isSome_of_readSlot _ _ _ (readSlot_isSome_of_schema p k₁ hp hk₁s)
    obtain ⟨p₁, hp₁⟩ := Option.isSome_iff_exists.mp hset
    have hp₁s : p₁.hasSchema := hasSchema_setSlot p p₁ _ _ hp₁ hp
    have hnd' : (rest.map Prod.fst).Nodup := by
      simp only [List.map_cons, List.nodup_cons] at hnd
      exact hnd.2
    obtain ⟨p', hps, hall⟩ := ih p₁ hp₁s hnd'
      (fun kv h => hks kv (by simp [h])) (fun kv h => hvs kv (by simp [h]))
    refine ⟨p', ?_, ?_⟩
    · simp only [Package.parse_deps, Option.bind_eq_some']
      exact ⟨_, hm, k₁, hk₁, p₁, hp₁, hps⟩
    · intro kv hkv k hk
      rcases List.mem_cons.mp hkv with heq | hkv'
      · obtain rfl : kv = (k₀, v₀) := heq
        have hkk : k = k₁ := by
          rw [hk] at hk₁
          exact Option.some.inj hk₁
        subst hkk
        have hpres : ∀ kv ∈ rest, kv.1 ≠ some k := by
          intro kv hkv hc
          exact nodup_keys_tail_ne k₀ v₀ rest hnd kv hkv (hc.trans hk₁.symm)
        rw [parse_deps_preserve k rest p₁ p' hpres hps]
        exact readSlot_setSlot_self p p₁ k _ hp₁
      · exact hall kv hkv' k hk

theorem parse_desc_spec :
    ∀ (es : Entries) (p : Package), p.hasSchema →
      (es.map Prod.fst).Nodup →
      (∀ kv ∈ es, ∃ k, kv.1 = some k ∧ k ∈ slotNames) →
      (∀ kv ∈ es, kv.2 ≠ []) →
      ∃ p', p.parse_desc es = some p' ∧
        ∀ kv ∈ es, ∀ k, kv.1 = some k →
          p'.readSlot k =
            some (if k = "groups" then Attr.tup kv.2 else Attr.str kv.2.headI) := by
  intro es
  induction es with
  | nil =>
    intro p _ _ _ _
    exact ⟨p, rfl, by simp⟩
  | cons kv rest ih =>
    obtain ⟨k₀, v₀⟩ := kv
    intro p hp hnd hks hvs
    obtain ⟨k₁, hk₁, hk₁s⟩ := hks (k₀, v₀) (by simp)
    obtain ⟨v0, vs, rfl⟩ : ∃ v0 vs, v₀ = v0 :: vs := by
      rcases v₀ with _ | ⟨v0, vs⟩
      · exact absurd rfl (hvs (k₀, []) (by simp))
      · exact ⟨v0, vs, rfl⟩
    have hset : (p.setSlot k₁
        (if k₁ = "groups" then Attr.tup (v0 :: vs) else Attr.str v0)).isSome :=
      setSlot_isSome_of_readSlot _ _ _ (readSlot_isSome_of_schema p k₁ hp hk₁s)
    obtain ⟨p₁, hp₁⟩ := Option.isSome_iff_exists.mp hset
    have hp₁s : p₁.hasSchema := hasSchema_setSlot p p₁ _ _ hp₁ hp
    have hnd' : (rest.map Prod.fst).Nodup := by
      simp only [List.map_cons, List.nodup_cons] at hnd
      exact hnd.2
    obtain ⟨p', hps, hall⟩ := ih p₁ hp₁s hnd'
      (fun kv h => hks kv (by simp [h])) (fun kv h => hvs kv (by simp [h]))
    refine ⟨p', ?_, ?_⟩
    · simp only [Package.parse_desc, Option.bind_eq_some']
      refine ⟨k₁, hk₁, p₁, ?_, hps⟩
      split_ifs with hg
      · rw [if_pos hg] at hp₁
        exact hp₁
      · rw [if_neg hg] at hp₁
        exact hp₁
    · intro kv hkv k hk
      rcases List.mem_cons.mp hkv with heq | hkv'
      · obtain rfl : kv = (k₀, v0 :: vs) := heq
        have hkk : k = k₁ := by
          rw [hk] at hk₁
          exact Option.some.inj hk₁
        subst hkk
        have hpres : ∀ kv ∈ rest, kv.1 ≠ some k := by
          intro kv hkv hc
          exact nodup_keys_tail_ne k₀ _ rest hnd kv hkv (hc.trans hk₁.symm)
        rw [parse_desc_preserve k rest p₁ p' hpres hps]
        exact readSlot_setSlot_self p p₁ k _ hp₁
      · exact hall kv hkv' k hk

/-! ### Version stripping as "longest leading run" -/

theorem stripChars_eq_takeWhile (l : List Char) :
    stripChars l =
      l.takeWhile fun c => !(c == '>' || c == '<' || c == '=' || c == ':') := by
  induction l with
  | nil => rfl
  | cons c cs ih =>
    by_cases hc : c = '>' ∨ c = '<' ∨ c = '=' ∨ c = ':'
    · have hb : (!(c == '>' || c == '<' || c == '=' || c == ':')) = false := by
        rcases hc with rfl | rfl | rfl | rfl <;> rfl
      simp [stripChars, hc, List.takeWhile, hb]
    · have hb : (!(c == '>' || c == '<' || c == '=' || c == ':')) = true := by
        push_neg at hc
        simp [hc.1, hc.2.1, hc.2.2.1, hc.2.2.2]
      simp [stripChars, hc, List.takeWhile, hb, ih]

theorem stripChars_all (l : List Char)
    (h : ∀ c ∈ l, ¬(c = '>' ∨ c = '<' ∨ c = '=' ∨ c = ':')) :
    stripChars l = l := by
  induction l with
  | nil => rfl
  | cons c cs ih =>
    simp only [stripChars, if_neg (h c (by simp))]
    rw [ih fun c hc => h c (by simp [hc])]

theorem stripVersion_no_op (v : String) (hne : v ≠ "")
    (h : ∀ c ∈ v.data, ¬(c = '>' ∨ c = '<' ∨ c = '=' ∨ c = ':')) :
    stripVersion v = some v := by
  unfold stripVersion
  simp only [stripChars_all v.data h]
  have hd : v.data ≠ [] := by
    intro hd
    apply hne
    cases v
    simp only [String.data] at hd
    rw [hd]
  rw [if_neg hd]

/-! ### The record parser stores pre-marker values under the null key -/

theorem lookupA_updEntries (es : Entries) (k k' : Option String) (v' : String)
    (lst : List String) (h : lookupA es k = some lst) :
    lookupA (updEntries es k' v') k =
      some (if k' = k then lst ++ [v'] else lst) := by
  induction es with
  | nil => simp [lookupA] at h
  | cons kv rest ih =>
    obtain ⟨k₀, vs⟩ := kv
    by_cases h0 : k₀ = k'
    · subst h0
      by_cases h1 : k₀ = k
      · subst h1
        simp [lookupA] at h
        subst h
        simp [updEntries, lookupA]
      · simp only [lookupA, if_neg h1] at h
        simp [updEntries, lookupA, h1, h]
    · by_cases h1 : k₀ = k
      · subst h1
        simp [lookupA] at h
        subst h
        have h2 : ¬(k' = k₀) := fun hc => h0 hc.symm
        simp [updEntries, lookupA, h0, h2]
      · simp only [lookupA, if_neg h1] at h
        simp only [updEntries, if_neg h0, lookupA, if_neg h1]
        exact ih h

theorem alpmParseGo_lookupA (k : Option String) :
    ∀ (ls : List String) (lk : Option String) (es : Entries) (v : String)
      (vs : List String), lookupA es k = some (v :: vs) →
      ∃ vs', lookupA (alpmParseGo lk es ls) k = some (v :: vs') := by
  intro ls
  induction ls with
  | nil => exact fun lk es v vs h => ⟨vs, h⟩
  | cons l ls ih =>
    intro lk es v vs h
    simp only [alpmParseGo]
    rcases hl : pyStripChars l.data with _ | ⟨c, cs⟩ <;> dsimp only
    · exact ih lk es v vs h
    · split_ifs with hm
      · exact ih _ es v vs h
      · have hupd := lookupA_updEntries es k lk (String.mk (c :: cs)) (v :: vs) h
        by_cases hlk : lk = k
        · rw [if_pos hlk] at hupd
          exact ih lk _ v (vs ++ [String.mk (c :: cs)]) (by simpa using hupd)
        · rw [if_neg hlk] at hupd
          exact ih lk _ v vs hupd


/-! ### Resolver helper lemmas -/

theorem lookupA_mem {κ α : Type} [DecidableEq κ] :
    ∀ (l : List (κ × α)) (k : κ) (a : α), lookupA l k = some a → (k, a) ∈ l := by
  intro l k a h
  induction l with
  | nil => simp [lookupA] at h
  | cons kv rest ih =>
    obtain ⟨k₀, a₀⟩ := kv
    by_cases h0 : k₀ = k
    · subst h0
      simp [lookupA] at h
      subst h
      simp
    · simp only [lookupA, if_neg h0] at h
      simp [ih h]

theorem derefList_ok_of_all (i : Nat) (r : Repo) :
    ∀ ns : List String, (∀ n ∈ ns, (lookupA r.packages n).isSome) →
      derefList i r ns = Except.ok (derefPure i r ns) := by
  intro ns h
  induction ns with
  | nil => rfl
  | cons n ns ih =>
    have hn := h n (by simp)
    rcases hl : lookupA r.packages n with _ | pkg
    · rw [hl] at hn; simp at hn
    · simp only [derefList, hl, ih fun x hx => h x (by simp [hx])]
      simp [derefPure, hl]

theorem derefList_mem (i : Nat) (r : Repo) :
    ∀ (ns : List String) (objs : List PObj), derefList i r ns = Except.ok objs →
      ∀ x ∈ objs, ∃ n pkg, x = ((i, n), pkg) ∧ lookupA r.packages n = some pkg := by
  intro ns
  induction ns with
  | nil =>
    intro objs h x hx
    simp only [derefList] at h
    obtain rfl : ([] : List PObj) = objs := by injection h
    simp at hx
  | cons n ns ih =>
    intro objs h x hx
    simp only [derefList] at h
    rcases hl : lookupA r.packages n with _ | pkg <;> rw [hl] at h
    · exact absurd h (by simp)
    · rcases hd : derefList i r ns with e | objs' <;> rw [hd] at h
      · exact absurd h (by simp)
      · obtain rfl : ((i, n), pkg) :: objs' = objs := by injection h
        rcases List.mem_cons.mp hx with rfl | hx'
        · exact ⟨n, pkg, rfl, hl⟩
        · exact ih objs' hd x hx'

theorem mem_derefPure (i : Nat) (r : Repo) (ns : List String) (x : PObj) :
    x ∈ derefPure i r ns ↔
      ∃ n ∈ ns, ∃ pkg, lookupA r.packages n = some pkg ∧ x = ((i, n), pkg) := by
  unfold derefPure
  simp only [List.mem_filterMap, Option.map_eq_some']
  constructor
  · rintro ⟨n, hn, pkg, hl, rfl⟩
    exact ⟨n, hn, pkg, hl, rfl⟩
  · rintro ⟨n, hn, pkg, hl, rfl⟩
    exact ⟨n, hn, pkg, hl, rfl⟩

theorem mem_enumL_ge {α : Type} :
    ∀ (l : List α) (n i : Nat) (a : α), (i, a) ∈ enumL n l → n ≤ i := by
  intro l
  induction l with
  | nil => intro n i a h; simp [enumL] at h
  | cons b l ih =>
    intro n i a h
    simp only [enumL, List.mem_cons, Prod.mk.injEq] at h
    rcases h with ⟨rfl, rfl⟩ | h
    · exact Nat.le_refl _
    · exact Nat.le_of_succ_le (ih (n + 1) i a h)

theorem enumL_fun {α : Type} :
    ∀ (l : List α) (n i : Nat) (a b : α),
      (i, a) ∈ enumL n l → (i, b) ∈ enumL n l → a = b := by
  intro l
  induction l with
  | nil => intro n i a b h; simp [enumL] at h
  | cons c l ih =>
    intro n i a b ha hb
    simp only [enumL, List.mem_cons, Prod.mk.injEq] at ha hb
    rcases ha with ⟨hi, rfl⟩ | ha
    · rcases hb with ⟨hi2, rfl⟩ | hb
      · rfl
      · exact absurd (mem_enumL_ge l (n + 1) i b hb) (by omega)
    · rcases hb with ⟨hi2, rfl⟩ | hb
      · exact absurd (mem_enumL_ge l (n + 1) i a ha) (by omega)
      · exact ih (n + 1) i a b ha hb

theorem mem_enumL_snd {α : Type} :
    ∀ (l : List α) (n i : Nat) (a : α), (i, a) ∈ enumL n l → a ∈ l := by
  intro l
  induction l with
  | nil => intro n i a h; simp [enumL] at h
  | cons b l ih =>
    intro n i a h
    simp only [enumL, List.mem_cons, Prod.mk.injEq] at h
    rcases h with ⟨rfl, rfl⟩ | h
    · simp
    · simp [ih (n + 1) i a h]

theorem mem_setAdd (acc : PSet) (y x : PObj) :
    x ∈ setAdd acc y ↔ x ∈ acc ∨ x = y := by
  unfold setAdd
  split_ifs with hy
  · constructor
    · exact fun h => Or.inl h
    · rintro (h | rfl)
      · exact h
      · exact hy
  · simp

theorem mem_setUpdate (xs : List PObj) :
    ∀ (acc : PSet) (x : PObj), x ∈ setUpdate acc xs ↔ x ∈ acc ∨ x ∈ xs := by
  induction xs with
  | nil => intro acc x; simp [setUpdate]
  | cons y ys ih =>
    intro acc x
    unfold setUpdate at ih ⊢
    simp only [List.foldl_cons]
    rw [ih (setAdd acc y) x, mem_setAdd]
    simp only [List.mem_cons]
    tauto

theorem nodup_setAdd (acc : PSet) (y : PObj) (h : acc.Nodup) :
    (setAdd acc y).Nodup := by
  unfold setAdd
  split_ifs with hy
  · exact h
  · simp [List.nodup_append, h, hy]

theorem nodup_setUpdate (xs : List PObj) :
    ∀ acc : PSet, acc.Nodup → (setUpdate acc xs).Nodup := by
  induction xs with
  | nil => exact fun acc h => h
  | cons y ys ih =>
    intro acc h
    unfold setUpdate at ih ⊢
    simp only [List.foldl_cons]
    exact ih (setAdd acc y) (nodup_setAdd acc y h)

theorem toFinset_setAdd (acc : PSet) (y : PObj) :
    (setAdd acc y).toFinset = insert y acc.toFinset := by
  ext x
  simp [mem_setAdd, or_comm]

theorem toFinset_setUpdate (acc : PSet) (xs : List PObj) :
    (setUpdate acc xs).toFinset = acc.toFinset ∪ xs.toFinset := by
  ext x
  simp [mem_setUpdate xs acc x]


/-! ### `resolve_name` as the spec's cross-catalog union -/

theorem nextFound_eq (r : Repo) (s : String) (found : Option (List String)) :
    nextFound r s found =
      (match r.matchSet s with
       | some l => some l
       | Option.none => found) := by
  unfold nextFound Repo.matchSet
  by_cases hpk : (lookupA r.packages s).isSome
  · rw [if_pos hpk, if_pos hpk]
  · rw [if_neg hpk, if_neg hpk]
    rcases lookupA r.provides s with _ | l₀
    · rcases lookupA r.groups s with _ | l₁ <;> rfl
    · rfl

theorem matchSet_wf (r : Repo) (s : String) (hwf : r.WF) (l : List String)
    (hm : r.matchSet s = some l) :
    l ≠ [] ∧ ∀ n ∈ l, (lookupA r.packages n).isSome := by
  unfold Repo.matchSet at hm
  split_ifs at hm with hpk
  · obtain rfl : [s] = l := by injection hm
    refine ⟨by simp, ?_⟩
    intro n hn
    simp only [List.mem_singleton] at hn
    subst hn
    exact hpk
  · rcases hp : lookupA r.provides s with _ | l₀ <;> simp only [hp] at hm
    · exact ⟨(hwf.1 (s, l) (lookupA_mem r.groups s l hm)).1,
        (hwf.1 (s, l) (lookupA_mem r.groups s l hm)).2⟩
    · obtain rfl : l₀ = l := by injection hm
      exact ⟨(hwf.2 (s, l₀) (lookupA_mem r.provides s l₀ hp)).1,
        (hwf.2 (s, l₀) (lookupA_mem r.provides s l₀ hp)).2⟩

theorem resolveNameAux_hit (s : String) (i : Nat) (r : Repo)
    (rest : List (Nat × Repo)) (acc : PSet) (found : Option (List String))
    (p : String) (ps : List String) (objs : List PObj)
    (hm : nextFound r s found = some (p :: ps))
    (hd : derefList i r (p :: ps) = Except.ok objs) :
    resolveNameAux s ((i, r) :: rest) acc found =
      resolveNameAux s rest (setUpdate acc objs) Option.none := by
  simp only [resolveNameAux, hm, hd]

theorem resolveNameAux_hit_err (s : String) (i : Nat) (r : Repo)
    (rest : List (Nat × Repo)) (acc : PSet) (found : Option (List String))
    (p : String) (ps : List String) (e : RErr)
    (hm : nextFound r s found = some (p :: ps))
    (hd : derefList i r (p :: ps) = Except.error e) :
    resolveNameAux s ((i, r) :: rest) acc found = Except.error e := by
  simp only [resolveNameAux, hm, hd]

theorem resolveNameAux_miss_none (s : String) (i : Nat) (r : Repo)
    (rest : List (Nat × Repo)) (acc : PSet) (found : Option (List String))
    (hm : nextFound r s found = Option.none) :
    resolveNameAux s ((i, r) :: rest) acc found =
      resolveNameAux s rest acc Option.none := by
  simp only [resolveNameAux, hm]

theorem resolveNameAux_miss_nil (s : String) (i : Nat) (r : Repo)
    (rest : List (Nat × Repo)) (acc : PSet) (found : Option (List String))
    (hm : nextFound r s found = some []) :
    resolveNameAux s ((i, r) :: rest) acc found =
      resolveNameAux s rest acc (some []) := by
  simp only [resolveNameAux, hm]

theorem resolveNameAux_eq (s : String) :
    ∀ (l : List (Nat × Repo)) (acc : PSet) (found : Option (List String)),
      (∀ ir ∈ l, ir.2.WF) → (found = Option.none ∨ found = some []) →
      ∃ res, resolveNameAux s l acc found = Except.ok res ∧
        res.toFinset = acc.toFinset ∪ unionResolveAux s l := by
  intro l
  induction l with
  | nil =>
    intro acc found _ _
    exact ⟨acc, rfl, by simp [unionResolveAux]⟩
  | cons ir rest ih =>
    obtain ⟨i, r⟩ := ir
    intro acc found hwf hfound
    have hwfr : r.WF := hwf (i, r) (by simp)
    rcases hms : r.matchSet s with _ | l₀
    · -- no index matched: found_packages carried over unchanged
      have hnf : nextFound r s found = found := by
        rw [nextFound_eq, hms]
      obtain ⟨res, hok, hfin⟩ := ih acc found
        (fun x hx => hwf x (by simp [hx])) hfound
      refine ⟨res, ?_, ?_⟩
      · rcases hfound with rfl | rfl
        · rw [resolveNameAux_miss_none s i r rest acc _ hnf]
          exact hok
        · rw [resolveNameAux_miss_nil s i r rest acc _ hnf]
          exact hok
      · rw [hfin]
        simp [unionResolveAux, hms]
    · -- one of the three indices matched
      obtain ⟨hne, hall⟩ := matchSet_wf r s hwfr l₀ hms
      obtain ⟨p, ps, rfl⟩ : ∃ p ps, l₀ = p :: ps := by
        rcases l₀ with _ | ⟨p, ps⟩
        · exact absurd rfl hne
        · exact ⟨p, ps, rfl⟩
      have hnf : nextFound r s found = some (p :: ps) := by
        rw [nextFound_eq, hms]
      have hd := derefList_ok_of_all i r (p :: ps) hall
      obtain ⟨res, hok, hfin⟩ := ih (setUpdate acc (derefPure i r (p :: ps)))
        Option.none (fun x hx => hwf x (by simp [hx])) (Or.inl rfl)
      refine ⟨res, ?_, ?_⟩
      · rw [resolveNameAux_hit s i r rest acc found p ps _ hnf hd]
        exact hok
      · rw [hfin, toFinset_setUpdate]
        simp only [unionResolveAux, hms]
        rw [Finset.union_assoc]

theorem resolveNameAux_nodup (s : String) :
    ∀ (l : List (Nat × Repo)) (acc : PSet) (found : Option (List String))
      (res : PSet), acc.Nodup →
      resolveNameAux s l acc found = Except.ok res → res.Nodup := by
  intro l
  induction l with
  | nil =>
    intro acc found res hnd h
    obtain rfl : acc = res := by injection h
    exact hnd
  | cons ir rest ih =>
    obtain ⟨i, r⟩ := ir
    intro acc found res hnd h
    rcases hnf : nextFound r s found with _ | l₀
    · rw [resolveNameAux_miss_none s i r rest acc found hnf] at h
      exact ih acc Option.none res hnd h
    · rcases l₀ with _ | ⟨p, ps⟩
      · rw [resolveNameAux_miss_nil s i r rest acc found hnf] at h
        exact ih acc (some []) res hnd h
      · rcases hd : derefList i r (p :: ps) with e | objs
        · rw [resolveNameAux_hit_err s i r rest acc found p ps e hnf hd] at h
          exact absurd h (by simp)
        · rw [resolveNameAux_hit s i r rest acc found p ps objs hnf hd] at h
          exact ih _ Option.none res (nodup_setUpdate objs acc hnd) h

theorem resolve_name_eq (m : Mirror) (s : String) (imp : Bool)
    (hwf : ∀ r ∈ m.repos, r.WF) :
    ∃ res, res.toFinset = m.unionResolve s ∧ res.Nodup ∧
      m.resolve_name s imp =
        (if res ≠ [] ∨ imp = false then Except.ok res
         else Except.error (RErr.notFound s)) := by
  obtain ⟨res, hok, hfin⟩ := resolveNameAux_eq s (enumL 0 m.repos) [] Option.none
    (fun ir hir => hwf ir.2
      (mem_enumL_snd m.repos 0 ir.1 ir.2 (by obtain ⟨i, r⟩ := ir; exact hir)))
    (Or.inl rfl)
  refine ⟨res, by simpa [Mirror.unionResolve] using hfin,
    resolveNameAux_nodup s (enumL 0 m.repos) [] Option.none res (by simp) hok, ?_⟩
  unfold Mirror.resolve_name
  simp only [hok]


/-! ### Everything `resolve_name` returns lives in the mirror -/

theorem resolveNameAux_subset (m : Mirror) (s : String) :
    ∀ (l : List (Nat × Repo)) (acc : PSet) (found : Option (List String))
      (res : PSet), (∀ ir ∈ l, ir ∈ enumL 0 m.repos) →
      resolveNameAux s l acc found = Except.ok res →
      ∀ x ∈ res, x ∈ acc ∨ x ∈ m.allObjsList := by
  intro l
  induction l with
  | nil =>
    intro acc found res _ h x hx
    obtain rfl : acc = res := by injection h
    exact Or.inl hx
  | cons ir rest ih =>
    obtain ⟨i, r⟩ := ir
    intro acc found res hl h x hx
    rcases hnf : nextFound r s found with _ | l₀
    · rw [resolveNameAux_miss_none s i r rest acc found hnf] at h
      exact ih acc Option.none res (fun y hy => hl y (by simp [hy])) h x hx
    · rcases l₀ with _ | ⟨p, ps⟩
      · rw [resolveNameAux_miss_nil s i r rest acc found hnf] at h
        exact ih acc (some []) res (fun y hy => hl y (by simp [hy])) h x hx
      · rcases hd : derefList i r (p :: ps) with e | objs
        · rw [resolveNameAux_hit_err s i r rest acc found p ps e hnf hd] at h
          exact absurd h (by simp)
        · rw [resolveNameAux_hit s i r rest acc found p ps objs hnf hd] at h
          rcases ih _ Option.none res (fun y hy => hl y (by simp [hy])) h x hx
            with hacc | hobj
          · rw [mem_setUpdate] at hacc
            rcases hacc with h1 | h2
            · exact Or.inl h1
            · right
              obtain ⟨n, pkg, rfl, hlk⟩ := derefList_mem i r (p :: ps) objs hd x h2
              have hir : (i, r) ∈ enumL 0 m.repos := hl (i, r) (by simp)
              unfold Mirror.allObjsList
              simp only [List.mem_flatMap]
              refine ⟨(i, r), hir, ?_⟩
              simp only [List.mem_map]
              exact ⟨(n, pkg), lookupA_mem r.packages n pkg hlk, rfl⟩
          · exact Or.inr hobj

theorem resolve_name_subset (m : Mirror) (s : String) (imp : Bool) (res : PSet)
    (h : m.resolve_name s imp = Except.ok res) :
    ∀ x ∈ res, x ∈ m.allObjsList := by
  unfold Mirror.resolve_name at h
  rcases ha : resolveNameAux s (enumL 0 m.repos) [] Option.none with e | res'
    <;> rw [ha] at h
  · exact absurd h (by simp)
  · have hsub := resolveNameAux_subset m s (enumL 0 m.repos) [] Option.none res'
      (fun ir hir => hir) ha
    replace h : (if res' ≠ [] ∨ imp = false then Except.ok res'
        else Except.error (RErr.notFound s)) = Except.ok res := h
    split_ifs at h with hc
    obtain rfl : res' = res := by injection h
    intro x hx
    rcases hsub x hx with h1 | h2
    · simp at h1
    · exact h2

theorem resolve_name_nodup (m : Mirror) (s : String) (imp : Bool) (res : PSet)
    (h : m.resolve_name s imp = Except.ok res) : res.Nodup := by
  unfold Mirror.resolve_name at h
  rcases ha : resolveNameAux s (enumL 0 m.repos) [] Option.none with e | res'
    <;> rw [ha] at h
  · exact absurd h (by simp)
  · replace h : (if res' ≠ [] ∨ imp = false then Except.ok res'
        else Except.error (RErr.notFound s)) = Except.ok res := h
    split_ifs at h with hc
    have h2 : res' = res := by injection h
    rw [← h2]
    exact resolveNameAux_nodup s (enumL 0 m.repos) [] Option.none res'
      (by simp) ha

theorem resolve_name_len (m : Mirror) (s : String) (imp : Bool) (res : PSet)
    (h : m.resolve_name s imp = Except.ok res) :
    res.length ≤ m.allObjs.card := by
  have hnd := resolve_name_nodup m s imp res h
  have hsub := resolve_name_subset m s imp res h
  rw [← List.toFinset_card_of_nodup hnd]
  apply Finset.card_le_card
  intro x hx
  rw [List.mem_toFinset] at hx
  rw [Mirror.allObjs, List.mem_toFinset]
  exact hsub x hx

/-! ### Error shapes: which exceptions each function can raise -/

theorem derefList_error (i : Nat) (r : Repo) :
    ∀ (ns : List String) (e : RErr), derefList i r ns = Except.error e →
      ∃ k, e = RErr.keyError k := by
  intro ns
  induction ns with
  | nil => intro e h; exact absurd h (by simp [derefList])
  | cons n ns ih =>
    intro e h
    simp only [derefList] at h
    rcases hl : lookupA r.packages n with _ | pkg <;> rw [hl] at h
    · obtain rfl : RErr.keyError n = e := by injection h
      exact ⟨n, rfl⟩
    · rcases hd : derefList i r ns with e' | objs <;> rw [hd] at h
      · have h2 : e' = e := by injection h
        rw [← h2]
        exact ih e' hd
      · exact absurd h (by simp)

theorem resolveNameAux_error (s : String) :
    ∀ (l : List (Nat × Repo)) (acc : PSet) (found : Option (List String))
      (e : RErr), resolveNameAux s l acc found = Except.error e →
      ∃ k, e = RErr.keyError k := by
  intro l
  induction l with
  | nil => intro acc found e h; exact absurd h (by simp [resolveNameAux])
  | cons ir rest ih =>
    obtain ⟨i, r⟩ := ir
    intro acc found e h
    rcases hnf : nextFound r s found with _ | l₀
    · rw [resolveNameAux_miss_none s i r rest acc found hnf] at h
      exact ih acc Option.none e h
    · rcases l₀ with _ | ⟨p, ps⟩
      · rw [resolveNameAux_miss_nil s i r rest acc found hnf] at h
        exact ih acc (some []) e h
      · rcases hd : derefList i r (p :: ps) with e' | objs
        · rw [resolveNameAux_hit_err s i r rest acc found p ps e' hnf hd] at h
          have h2 : e' = e := by injection h
          rw [← h2]
          exact derefList_error i r (p :: ps) e' hd
        · rw [resolveNameAux_hit s i r rest acc found p ps objs hnf hd] at h
          exact ih _ Option.none e h

theorem resolve_name_error (m : Mirror) (s : String) (imp : Bool) (e : RErr)
    (h : m.resolve_name s imp = Except.error e) :
    (∃ k, e = RErr.keyError k) ∨ e = RErr.notFound s := by
  unfold Mirror.resolve_name at h
  rcases ha : resolveNameAux s (enumL 0 m.repos) [] Option.none with e' | res'
    <;> rw [ha] at h
  · have h2 : e' = e := by injection h
    rw [← h2]
    exact Or.inl (resolveNameAux_error s (enumL 0 m.repos) [] Option.none e' ha)
  · replace h : (if res' ≠ [] ∨ imp = false then Except.ok res'
        else Except.error (RErr.notFound s)) = Except.error e := h
    split_ifs at h with hc
    have h2 : RErr.notFound s = e := by injection h
    rw [← h2]
    exact Or.inr rfl

theorem resolve_name_lenient_ok (m : Mirror) (s : String) :
    (∃ res, m.resolve_name s false = Except.ok res) ∨
      ∃ k, m.resolve_name s false = Except.error (RErr.keyError k) := by
  rcases h : m.resolve_name s false with e | res
  · rcases resolve_name_error m s false e h with ⟨k, rfl⟩ | rfl
    · exact Or.inr ⟨k, rfl⟩
    · exfalso
      unfold Mirror.resolve_name at h
      rcases ha : resolveNameAux s (enumL 0 m.repos) [] Option.none with e' | res'
        <;> rw [ha] at h
      · have h2 : e' = RErr.notFound s := by injection h
        obtain ⟨k, hk⟩ := resolveNameAux_error s (enumL 0 m.repos) []
          Option.none e' ha
        rw [h2] at hk
        exact absurd hk (by simp)
      · replace h : (if res' ≠ [] ∨ false = false then Except.ok res'
            else Except.error (RErr.notFound s)) =
              Except.error (RErr.notFound s) := h
        split_ifs at h with hc
        exact hc (Or.inr rfl)
  · exact Or.inl ⟨res, rfl⟩

theorem resolveMany_subset (m : Mirror) (imp : Bool) :
    ∀ (ns : List String) (l : List PObj),
      m.resolveMany imp ns = Except.ok l → ∀ x ∈ l, x ∈ m.allObjsList := by
  intro ns
  induction ns with
  | nil =>
    intro l h x hx
    obtain rfl : ([] : List PObj) = l := by injection h
    simp at hx
  | cons n ns ih =>
    intro l h x hx
    simp only [Mirror.resolveMany] at h
    rcases hr : m.resolve_name n imp with e | fs <;> rw [hr] at h
    · exact absurd h (by simp)
    · rcases hm : m.resolveMany imp ns with e | l' <;> rw [hm] at h
      · exact absurd h (by simp)
      · obtain rfl : fs ++ l' = l := by injection h
        rcases List.mem_append.mp hx with h1 | h2
        · exact resolve_name_subset m n imp fs hr x h1
        · exact ih l' hm x h2

theorem resolveMany_len (m : Mirror) (imp : Bool) :
    ∀ (ns : List String) (l : List PObj),
      m.resolveMany imp ns = Except.ok l →
      l.length ≤ ns.length * m.allObjs.card := by
  intro ns
  induction ns with
  | nil =>
    intro l h
    obtain rfl : ([] : List PObj) = l := by injection h
    simp
  | cons n ns ih =>
    intro l h
    simp only [Mirror.resolveMany] at h
    rcases hr : m.resolve_name n imp with e | fs <;> rw [hr] at h
    · exact absurd h (by simp)
    · rcases hm : m.resolveMany imp ns with e | l' <;> rw [hm] at h
      · exact absurd h (by simp)
      · obtain rfl : fs ++ l' = l := by injection h
        rw [List.length_append]
        have h1 := resolve_name_len m n imp fs hr
        have h2 := ih l' hm
        calc fs.length + l'.length
            ≤ m.allObjs.card + ns.length * m.allObjs.card :=
              Nat.add_le_add h1 h2
          _ = (n :: ns).length * m.allObjs.card := by
              simp [List.length_cons, Nat.succ_mul, Nat.add_comm]

theorem resolveMany_error (m : Mirror) (imp : Bool) :
    ∀ (ns : List String) (e : RErr),
      m.resolveMany imp ns = Except.error e →
      (∃ k, e = RErr.keyError k) ∨ ∃ t, e = RErr.notFound t := by
  intro ns
  induction ns with
  | nil => intro e h; exact absurd h (by simp [Mirror.resolveMany])
  | cons n ns ih =>
    intro e h
    simp only [Mirror.resolveMany] at h
    rcases hr : m.resolve_name n imp with e' | fs <;> rw [hr] at h
    · have h2 : e' = e := by injection h
      rw [← h2]
      rcases resolve_name_error m n imp e' hr with hke | hnf
      · exact Or.inl hke
      · exact Or.inr ⟨n, hnf⟩
    · rcases hm : m.resolveMany imp ns with e' | l' <;> rw [hm] at h
      · have h2 : e' = e := by injection h
        rw [← h2]
        exact ih e' hm
      · exact absurd h (by simp)


/-! ### Expansion bounds and termination of the closure loop -/

theorem expandPkg_subset (m : Mirror) (optdep : Bool) (p : PObj)
    (new : List PObj) (h : m.expandPkg optdep p = Except.ok new) :
    ∀ x ∈ new, x ∈ m.allObjsList := by
  unfold Mirror.expandPkg at h
  rcases hdi : (p.2.readSlot "depends").bind Attr.iter with _ | depNames <;>
    simp only [hdi] at h
  · exact absurd h (by simp)
  · rcases hds : m.resolveMany true depNames with e | ds <;> simp only [hds] at h
    · exact absurd h (by simp)
    · by_cases hop : optdep
      · rw [if_pos hop] at h
        rcases hoi : (p.2.readSlot "optdepends").bind Attr.iter with _ | optNames
          <;> simp only [hoi] at h
        · exact absurd h (by simp)
        · rcases hos : m.resolveMany false optNames with e | os <;>
            simp only [hos] at h
          · exact absurd h (by simp)
          · obtain rfl : ds ++ os = new := by injection h
            intro x hx
            rcases List.mem_append.mp hx with h1 | h2
            · exact resolveMany_subset m true depNames ds hds x h1
            · exact resolveMany_subset m false optNames os hos x h2
      · rw [if_neg hop] at h
        obtain rfl : ds = new := by injection h
        exact resolveMany_subset m true depNames ds hds

theorem expandPkg_len (m : Mirror) (optdep : Bool) (p : PObj)
    (new : List PObj) (h : m.expandPkg optdep p = Except.ok new) :
    new.length ≤ m.cost p := by
  unfold Mirror.expandPkg at h
  rcases hdi : (p.2.readSlot "depends").bind Attr.iter with _ | depNames <;>
    simp only [hdi] at h
  · exact absurd h (by simp)
  · have hdl : slotIterLen p.2 "depends" = depNames.length := by
      simp [slotIterLen, hdi]
    rcases hds : m.resolveMany true depNames with e | ds <;> simp only [hds] at h
    · exact absurd h (by simp)
    · have hdb := resolveMany_len m true depNames ds hds
      by_cases hop : optdep
      · rw [if_pos hop] at h
        rcases hoi : (p.2.readSlot "optdepends").bind Attr.iter with _ | optNames
          <;> simp only [hoi] at h
        · exact absurd h (by simp)
        · have hol : slotIterLen p.2 "optdepends" = optNames.length := by
            simp [slotIterLen, hoi]
          rcases hos : m.resolveMany false optNames with e | os <;>
            simp only [hos] at h
          · exact absurd h (by simp)
          · have hob := resolveMany_len m false optNames os hos
            obtain rfl : ds ++ os = new := by injection h
            unfold Mirror.cost
            rw [hdl, hol, List.length_append, Nat.add_mul]
            exact Nat.add_le_add hdb hob
      · rw [if_neg hop] at h
        obtain rfl : ds = new := by injection h
        unfold Mirror.cost
        rw [hdl, Nat.add_mul]
        exact Nat.le_trans hdb (Nat.le_add_right _ _)

theorem expandPkg_not_fuelOut (m : Mirror) (optdep : Bool) (p : PObj) (e : RErr)
    (h : m.expandPkg optdep p = Except.error e) : e ≠ RErr.fuelOut := by
  unfold Mirror.expandPkg at h
  rcases hdi : (p.2.readSlot "depends").bind Attr.iter with _ | depNames <;>
    simp only [hdi] at h
  · have h2 : RErr.typeError = e := by injection h
    rw [← h2]
    simp
  · rcases hds : m.resolveMany true depNames with e' | ds <;> simp only [hds] at h
    · have h2 : e' = e := by injection h
      rw [← h2]
      rcases resolveMany_error m true depNames e' hds with ⟨k, rfl⟩ | ⟨t, rfl⟩ <;>
        simp
    · by_cases hop : optdep
      · rw [if_pos hop] at h
        rcases hoi : (p.2.readSlot "optdepends").bind Attr.iter with _ | optNames
          <;> simp only [hoi] at h
        · have h2 : RErr.typeError = e := by injection h
          rw [← h2]
          simp
        · rcases hos : m.resolveMany false optNames with e' | os <;>
            simp only [hos] at h
          · have h2 : e' = e := by injection h
            rw [← h2]
            rcases resolveMany_error m false optNames e' hos with ⟨k, rfl⟩ | ⟨t, rfl⟩
              <;> simp
          · exact absurd h (by simp)
      · rw [if_neg hop] at h
        exact absurd h (by simp)

theorem resolveDepsAux_no_fuelOut (m : Mirror) (optdep : Bool) (U : Finset PObj)
    (hU : ∀ x ∈ m.allObjsList, x ∈ U) :
    ∀ (fuel : Nat) (known : PSet) (queue : List PObj),
      (∀ x ∈ queue, x ∈ U) → m.phi U known queue ≤ fuel →
      isFuelOut (m.resolveDepsAux optdep fuel known queue) = false := by
  intro fuel
  induction fuel with
  | zero =>
    intro known queue hq hphi
    rcases queue with _ | ⟨p, rest⟩
    · rfl
    · exfalso
      unfold Mirror.phi at hphi
      rw [List.length_cons] at hphi
      omega
  | succ fuel ih =>
    intro known queue hq hphi
    rcases queue with _ | ⟨p, rest⟩
    · rfl
    · simp only [Mirror.resolveDepsAux]
      split_ifs with hp
      · apply ih known rest fun x hx => hq x (by simp [hx])
        unfold Mirror.phi at hphi ⊢
        rw [List.length_cons] at hphi
        omega
      · rcases he : m.expandPkg optdep p with e | new <;> simp only [he]
        · have hne := expandPkg_not_fuelOut m optdep p e he
          rcases e with k | t | _ | _ | _ <;> first | rfl | exact absurd rfl hne
        · apply ih (setAdd known p) (rest ++ new) ?_ ?_
          · intro x hx
            rcases List.mem_append.mp hx with h1 | h2
            · exact hq x (by simp [h1])
            · exact hU x (expandPkg_subset m optdep p new he x h2)
          · have hpU : p ∈ U := hq p (by simp)
            have hpk : p ∉ known.toFinset := by
              rw [List.mem_toFinset]
              exact hp
            have hpS : p ∈ U \ known.toFinset := Finset.mem_sdiff.mpr ⟨hpU, hpk⟩
            have hsd : U \ (setAdd known p).toFinset =
                (U \ known.toFinset).erase p := by
              rw [toFinset_setAdd, Finset.sdiff_insert]
            have hsum : (1 + m.cost p) +
                ((U \ known.toFinset).erase p).sum (fun u => 1 + m.cost u) =
                (U \ known.toFinset).sum (fun u => 1 + m.cost u) := by
              simpa using Finset.add_sum_erase (U \ known.toFinset)
                (fun u => 1 + m.cost u) hpS
            have hlen := expandPkg_len m optdep p new he
            unfold Mirror.phi at hphi ⊢
            rw [hsd, List.length_append]
            rw [List.length_cons] at hphi
            omega

theorem resolve_deps_no_fuelOut (m : Mirror) (seeds : List PObj)
    (optdep : Bool) : isFuelOut (m.resolve_deps seeds optdep) = false := by
  unfold Mirror.resolve_deps Mirror.suffFuel
  apply resolveDepsAux_no_fuelOut m optdep (m.allObjs ∪ seeds.toFinset)
  · intro x hx
    rw [Finset.mem_union]
    left
    rw [Mirror.allObjs, List.mem_toFinset]
    exact hx
  · intro x hx
    rw [Finset.mem_union]
    right
    rw [List.mem_toFinset]
    exact hx
  · exact Nat.le_refl _

theorem resolveDepsAux_superset (m : Mirror) (optdep : Bool) :
    ∀ (fuel : Nat) (known : PSet) (queue : List PObj) (res : PSet),
      m.resolveDepsAux optdep fuel known queue = Except.ok res →
      (∀ x ∈ known, x ∈ res) ∧ ∀ x ∈ queue, x ∈ res := by
  intro fuel
  induction fuel with
  | zero =>
    intro known queue res h
    rcases queue with _ | ⟨p, rest⟩
    · obtain rfl : known = res := by injection h
      exact ⟨fun x hx => hx, by simp⟩
    · exact absurd h (by simp [Mirror.resolveDepsAux])
  | succ fuel ih =>
    intro known queue res h
    rcases queue with _ | ⟨p, rest⟩
    · obtain rfl : known = res := by injection h
      exact ⟨fun x hx => hx, by simp⟩
    · simp only [Mirror.resolveDepsAux] at h
      split_ifs at h with hp
      · obtain ⟨h1, h2⟩ := ih known rest res h
        refine ⟨h1, ?_⟩
        intro x hx
        rcases List.mem_cons.mp hx with rfl | hx'
        · exact h1 x hp
        · exact h2 x hx'
      · rcases he : m.expandPkg optdep p with e | new <;> simp only [he] at h
        · exact absurd h (by simp)
        · obtain ⟨h1, h2⟩ := ih (setAdd known p) (rest ++ new) res h
          have hk : ∀ x ∈ known, x ∈ res := fun x hx =>
            h1 x (by rw [mem_setAdd]; exact Or.inl hx)
          refine ⟨hk, ?_⟩
          intro x hx
          rcases List.mem_cons.mp hx with rfl | hx'
          · exact h1 x (by rw [mem_setAdd]; exact Or.inr rfl)
          · exact h2 x (List.mem_append_left new hx')


/-! ### Membership in the spec-side union -/

theorem mem_unionResolveAux (s : String) :
    ∀ (l : List (Nat × Repo)) (x : PObj),
      x ∈ unionResolveAux s l ↔
        ∃ ir ∈ l, ∃ l₀, ir.2.matchSet s = some l₀ ∧
          x ∈ derefPure ir.1 ir.2 l₀ := by
  intro l
  induction l with
  | nil => intro x; simp [unionResolveAux]
  | cons ir rest ih =>
    obtain ⟨i, r⟩ := ir
    intro x
    simp only [unionResolveAux, Finset.mem_union]
    rcases hms : r.matchSet s with _ | l₀
    · simp only [hms, Finset.not_mem_empty, false_or]
      rw [ih]
      constructor
      · rintro ⟨ir, hir, l₀, hm, hx⟩
        exact ⟨ir, by simp [hir], l₀, hm, hx⟩
      · rintro ⟨ir, hir, l₀, hm, hx⟩
        rcases List.mem_cons.mp hir with rfl | hir'
        · rw [hms] at hm
          exact absurd hm (by simp)
        · exact ⟨ir, hir', l₀, hm, hx⟩
    · simp only [hms, List.mem_toFinset]
      rw [ih]
      constructor
      · rintro (hx | ⟨ir, hir, l₁, hm, hx⟩)
        · exact ⟨(i, r), by simp, l₀, hms, hx⟩
        · exact ⟨ir, by simp [hir], l₁, hm, hx⟩
      · rintro ⟨ir, hir, l₁, hm, hx⟩
        rcases List.mem_cons.mp hir with rfl | hir'
        · left
          rw [hms] at hm
          obtain rfl : l₀ = l₁ := by injection hm
          exact hx
        · right
          exact ⟨ir, hir', l₁, hm, hx⟩

theorem unionResolveAux_no_match (s : String) :
    ∀ l : List (Nat × Repo), (∀ ir ∈ l, ir.2.matchSet s = Option.none) →
      unionResolveAux s l = ∅ := by
  intro l
  induction l with
  | nil => intro _; rfl
  | cons ir rest ih =>
    obtain ⟨i, r⟩ := ir
    intro h
    have hms : r.matchSet s = Option.none := h (i, r) (by simp)
    simp only [unionResolveAux, hms]
    rw [ih fun x hx => h x (by simp [hx])]
    simp

theorem unionResolveAux_nonempty (s : String) (l : List (Nat × Repo))
    (ir : Nat × Repo) (hir : ir ∈ l) (l₀ : List String)
    (hm : ir.2.matchSet s = some l₀) (hwf : ir.2.WF) :
    (unionResolveAux s l).Nonempty := by
  obtain ⟨hne, hall⟩ := matchSet_wf ir.2 s hwf l₀ hm
  obtain ⟨p, ps, rfl⟩ : ∃ p ps, l₀ = p :: ps := by
    rcases l₀ with _ | ⟨p, ps⟩
    · exact absurd rfl hne
    · exact ⟨p, ps, rfl⟩
  obtain ⟨pkg, hpkg⟩ := Option.isSome_iff_exists.mp (hall p (by simp))
  refine ⟨((ir.1, p), pkg), ?_⟩
  rw [mem_unionResolveAux]
  refine ⟨ir, hir, p :: ps, hm, ?_⟩
  rw [mem_derefPure]
  exact ⟨p, by simp, pkg, hpkg, rfl⟩

/-! ### The built indices only reference existing package keys -/

theorem idxAppend_inv (P : String → Prop) (k v : String) (hv : P v) :
    ∀ idx : List (String × List String),
      (∀ kv ∈ idx, kv.2 ≠ [] ∧ ∀ n ∈ kv.2, P n) →
      ∀ kv ∈ idxAppend idx k v, kv.2 ≠ [] ∧ ∀ n ∈ kv.2, P n := by
  intro idx
  induction idx with
  | nil =>
    intro _ kv hkv
    simp only [idxAppend, List.mem_singleton] at hkv
    subst hkv
    refine ⟨by simp, ?_⟩
    intro n hn
    simp only [List.mem_singleton] at hn
    subst hn
    exact hv
  | cons kv₀ rest ih =>
    obtain ⟨k₀, vs⟩ := kv₀
    intro hidx kv hkv
    simp only [idxAppend] at hkv
    split_ifs at hkv with hk
    · rcases List.mem_cons.mp hkv with rfl | h
      · have h0 := hidx (k₀, vs) (by simp)
        refine ⟨by simp, ?_⟩
        intro n hn
        rcases List.mem_append.mp hn with h1 | h1
        · exact h0.2 n h1
        · simp only [List.mem_singleton] at h1
          subst h1
          exact hv
      · exact hidx kv (by simp [h])
    · rcases List.mem_cons.mp hkv with rfl | h
      · exact hidx (k₀, vs) (by simp)
      · exact ih (fun kv2 hkv2 => hidx kv2 (by simp [hkv2])) kv h

theorem foldl_idxAppend_inv (P : String → Prop) (nm : String) (hn : P nm) :
    ∀ (gs : List String) (idx : List (String × List String)),
      (∀ kv ∈ idx, kv.2 ≠ [] ∧ ∀ n ∈ kv.2, P n) →
      ∀ kv ∈ gs.foldl (fun m x => idxAppend m x nm) idx,
        kv.2 ≠ [] ∧ ∀ n ∈ kv.2, P n := by
  intro gs
  induction gs with
  | nil => intro idx h; simpa using h
  | cons g gs ih =>
    intro idx h
    simp only [List.foldl_cons]
    exact ih (idxAppend idx g nm) (idxAppend_inv P g nm hn idx h)

theorem build_indices_inv (P : String → Prop) :
    ∀ (pkgs : List (String × Package))
      (g p g' p' : List (String × List String)),
      (∀ np ∈ pkgs, P np.1) →
      (∀ kv ∈ g, kv.2 ≠ [] ∧ ∀ n ∈ kv.2, P n) →
      (∀ kv ∈ p, kv.2 ≠ [] ∧ ∀ n ∈ kv.2, P n) →
      build_indices pkgs g p = some (g', p') →
      (∀ kv ∈ g', kv.2 ≠ [] ∧ ∀ n ∈ kv.2, P n) ∧
        ∀ kv ∈ p', kv.2 ≠ [] ∧ ∀ n ∈ kv.2, P n := by
  intro pkgs
  induction pkgs with
  | nil =>
    intro g p g' p' _ hg hp h
    simp only [build_indices, Option.some.injEq, Prod.mk.injEq] at h
    obtain ⟨rfl, rfl⟩ := h
    exact ⟨hg, hp⟩
  | cons np rest ih =>
    obtain ⟨n, pkg⟩ := np
    intro g p g' p' hP hg hp h
    simp only [build_indices, Option.bind_eq_some'] at h
    obtain ⟨gs, hgs, ps, hps, h⟩ := h
    exact ih _ _ g' p' (fun x hx => hP x (by simp [hx]))
      (foldl_idxAppend_inv P n (hP (n, pkg) (by simp)) gs g hg)
      (foldl_idxAppend_inv P n (hP (n, pkg) (by simp)) ps p hp) h


/-! ### The claims -/

/-- Claim C1: for every name and every collection of catalogs,
`resolve_name` returns the union, over all catalogs in which the name
matched under one of the three indices, of the Packages dereferenced by
package name in that same catalog; in particular, on two catalogs each
containing a package literally named `bash`, `resolve_name "bash"`
returns a set of size 2, one Package object per catalog. -/
theorem clm_C1 :
    (∀ (m : Mirror) (s : String) (imp : Bool), (∀ r ∈ m.repos, r.WF) →
      ((m.unionResolve s).Nonempty ∨ imp = false) →
      okSet (m.resolve_name s imp) = some (m.unionResolve s))
    ∧ okSet (m2.resolve_name "bash" true) = some (m2.unionResolve "bash")
    ∧ (m2.unionResolve "bash").card = 2 := by
  refine ⟨?_, by decide, by decide⟩
  intro m s imp hwf hne
  obtain ⟨res, hfin, hnd, heq⟩ := resolve_name_eq m s imp hwf
  rw [heq]
  have hok : res ≠ [] ∨ imp = false := by
    rcases hne with hne | rfl
    · left
      intro hc
      rw [hc] at hfin
      simp only [List.toFinset_nil] at hfin
      rw [← hfin] at hne
      exact Finset.not_nonempty_empty hne
    · right
      rfl
  rw [if_pos hok]
  simp only [okSet]
  rw [hfin]

/-- Witness for C1 at the two-catalog `bash` mirror. -/
theorem clm_C1_witness :
    okSet (m2.resolve_name "bash" true) = some (m2.unionResolve "bash") :=
  clm_C1.1 m2 "bash" true (by decide) (Or.inl (by decide))

/-- Claim C2: a name matching in no catalog fails with the
`NotFoundError` naming the identifier when strict, and yields the empty
set when lenient; a name matching in at least one catalog yields a
non-empty set and never fails, for either flag value. -/
theorem clm_C2 (m : Mirror) (s : String) (hwf : ∀ r ∈ m.repos, r.WF) :
    ((∀ ir ∈ enumL 0 m.repos, ir.2.matchSet s = Option.none) →
      m.resolve_name s true = Except.error (RErr.notFound s) ∧
      m.resolve_name s false = Except.ok [])
    ∧ ∀ ir ∈ enumL 0 m.repos, ∀ l₀, ir.2.matchSet s = some l₀ →
        ∀ imp : Bool, ∃ res, m.resolve_name s imp = Except.ok res ∧ res ≠ [] := by
  constructor
  · intro hno
    have hemp : m.unionResolve s = ∅ :=
      unionResolveAux_no_match s (enumL 0 m.repos) hno
    constructor
    · obtain ⟨res, hfin, hnd, heq⟩ := resolve_name_eq m s true hwf
      have hres : res = [] := by
        have h2 : res.toFinset = ∅ := by rw [hfin, hemp]
        simpa using h2
      rw [heq, hres]
      simp
    · obtain ⟨res, hfin, hnd, heq⟩ := resolve_name_eq m s false hwf
      have hres : res = [] := by
        have h2 : res.toFinset = ∅ := by rw [hfin, hemp]
        simpa using h2
      rw [heq, hres]
      simp
  · intro ir hir l₀ hm imp
    obtain ⟨res, hfin, hnd, heq⟩ := resolve_name_eq m s imp hwf
    have hne : res ≠ [] := by
      intro hc
      have hnon : (m.unionResolve s).Nonempty :=
        unionResolveAux_nonempty s (enumL 0 m.repos) ir hir l₀ hm
          (hwf ir.2 (mem_enumL_snd m.repos 0 ir.1 ir.2
            (by obtain ⟨i, r⟩ := ir; exact hir)))
      rw [hc] at hfin
      simp only [List.toFinset_nil] at hfin
      rw [← hfin] at hnon
      exact Finset.not_nonempty_empty hnon
    refine ⟨res, ?_, hne⟩
    rw [heq, if_pos (Or.inl hne)]

/-- Witness for C2 at the two-catalog mirror and the name `missing`. -/
theorem clm_C2_witness :
    m2.resolve_name "missing" true = Except.error (RErr.notFound "missing") ∧
    m2.resolve_name "missing" false = Except.ok [] :=
  (clm_C2 m2 "missing" (by decide)).1 (by decide)

/-- Claim C3: within one catalog at most one match kind applies, in
priority order package-name, provides, groups: whenever the name is a
package key of a catalog, that catalog contributes exactly its own
package object of that name, never a provider; concretely, a catalog
holding both a package `foo` and a package `bar` with `provides: foo`
resolves `foo` to the literal package only, although the provides index
does map `foo` to `bar`. -/
theorem clm_C3 :
    (∀ (m : Mirror) (s : String) (res : PSet), (∀ r ∈ m.repos, r.WF) →
      m.resolve_name s true = Except.ok res →
      ∀ ir ∈ enumL 0 m.repos, ∀ pkg, lookupA ir.2.packages s = some pkg →
        ∀ x ∈ res, x.1.1 = ir.1 → x = ((ir.1, s), pkg))
    ∧ mFoo.resolve_name "foo" true = Except.ok [((0, "foo"), pkgFoo)]
    ∧ lookupA repoFoo.provides "foo" = some ["bar"] := by
  refine ⟨?_, by decide, by decide⟩
  intro m s res hwf hok ir hir pkg hpkg x hx hxi
  obtain ⟨res', hfin, hnd, heq⟩ := resolve_name_eq m s true hwf
  rw [heq] at hok
  rcases Decidable.em (res' ≠ [] ∨ (true : Bool) = false) with hc | hc
  · rw [if_pos hc] at hok
    obtain rfl : res' = res := by injection hok
    have hxu : x ∈ m.unionResolve s := by
      rw [← hfin, List.mem_toFinset]
      exact hx
    rw [Mirror.unionResolve, mem_unionResolveAux] at hxu
    obtain ⟨jr, hjr, l₀, hm, hxd⟩ := hxu
    rw [mem_derefPure] at hxd
    obtain ⟨n, hn, pkg', hlk, rfl⟩ := hxd
    have hji : jr.1 = ir.1 := hxi
    have hr2 : jr.2 = ir.2 := by
      obtain ⟨j, r'⟩ := jr
      obtain ⟨i, r⟩ := ir
      simp only at hji
      subst hji
      exact enumL_fun m.repos 0 j r' r hjr hir
    have hms : ir.2.matchSet s = some [s] := by
      unfold Repo.matchSet
      rw [hpkg]
      rfl
    rw [hr2, hms] at hm
    have hl : ([s] : List String) = l₀ := by injection hm
    rw [← hl] at hn
    have hns : n = s := by simpa using hn
    rw [hr2, hns, hpkg] at hlk
    have hpp : pkg = pkg' := by injection hlk
    rw [hji, hns, ← hpp]
  · rw [if_neg hc] at hok
    exact absurd hok (by simp)

/-- Witness for C3: the general statement applied at the shadowing
catalog pins the resolved object to the literal `foo` package. -/
theorem clm_C3_witness :
    (((0, "foo"), pkgFoo) : PObj) = ((0, "foo"), pkgFoo) :=
  clm_C3.1 mFoo "foo" [((0, "foo"), pkgFoo)] (by decide) (by decide)
    (0, repoFoo) (by decide) pkgFoo (by decide) ((0, "foo"), pkgFoo)
    (by decide) rfl

/-- Claim C4: `resolve_deps` terminates on every mirror and seed list —
the fuel chosen from the visited-set bound is never exhausted — and on
the two-package dependency cycle (`a` depends on `b`, `b` depends on
`a`) it returns exactly the set of both packages. -/
theorem clm_C4 :
    (∀ (m : Mirror) (seeds : List PObj) (optdep : Bool),
      isFuelOut (m.resolve_deps seeds optdep) = false)
    ∧ okSet (mAB.resolve_deps [objA] false) = some {objA, objB}
    ∧ mAB.resolve_deps [objA] false = Except.ok [objA, objB] :=
  ⟨resolve_deps_no_fuelOut, by decide, by decide⟩

/-- Claim C5: whatever `resolve_deps` returns is a superset of its seed
packages. -/
theorem clm_C5 (m : Mirror) (seeds : List PObj) (optdep : Bool) (res : PSet)
    (h : m.resolve_deps seeds optdep = Except.ok res) :
    ∀ x ∈ seeds, x ∈ res :=
  (resolveDepsAux_superset m optdep (m.suffFuel seeds) [] seeds res h).2

/-- Witness for C5 at the cyclic mirror. -/
theorem clm_C5_witness : objA ∈ [objA, objB] :=
  clm_C5 mAB [objA] false [objA, objB] (by decide) objA (by decide)

/-- Claim C6: optional dependencies are resolved leniently — a lenient
resolution never raises the `NotFoundError` — so a package whose
`optdepends` names nothing resolvable closes without error and without
any package for that name, while the same name as a hard dependency
aborts the traversal with the `NotFoundError`. -/
theorem clm_C6 :
    (∀ (m : Mirror) (s : String),
      (∃ res, m.resolve_name s false = Except.ok res) ∨
        ∃ k, m.resolve_name s false = Except.error (RErr.keyError k))
    ∧ okSet (mXY.resolve_deps [objX] true) = some {objX}
    ∧ mXY.resolve_deps [objY] false =
        Except.error (RErr.notFound "nonexistent-pkg") :=
  ⟨resolve_name_lenient_ok, by decide, by decide⟩

/-- Claim C7 (amended): on a dependency mapping whose keys are schema
slots and whose every value starts with a character outside
`{<,>,=,:}`, `parse_deps` stores under the same field name each value's
longest leading run of such characters (the run is `takeWhile`, a value
with no operator suffix passes unchanged, and `"glibc>=2.30"` becomes
`"glibc"`); a value whose leading run is empty makes `parse_deps` fail
instead (see the counterexample). -/
theorem clm_C7 :
    (∀ (p : Package) (es : Entries), p.hasSchema →
      (es.map Prod.fst).Nodup →
      (∀ kv ∈ es, ∃ k, kv.1 = some k ∧ k ∈ slotNames) →
      (∀ kv ∈ es, ∀ v ∈ kv.2, (stripVersion v).isSome) →
      ∃ p', p.parse_deps es = some p' ∧
        ∀ kv ∈ es, ∀ k, kv.1 = some k →
          p'.readSlot k =
            some (Attr.tup (kv.2.map fun v => (stripVersion v).getD "")))
    ∧ (∀ l : List Char, stripChars l =
        l.takeWhile fun c => !(c == '>' || c == '<' || c == '=' || c == ':'))
    ∧ (∀ v : String, v ≠ "" →
        (∀ c ∈ v.data, ¬(c = '>' ∨ c = '<' ∨ c = '=' ∨ c = ':')) →
        stripVersion v = some v)
    ∧ stripVersion "glibc>=2.30" = some "glibc" :=
  ⟨fun p es => parse_deps_spec es p, stripChars_eq_takeWhile,
    stripVersion_no_op, by decide⟩

/-- Counterexample to C7 as stated: the value `"=x"` has an empty
leading run, and `parse_deps` raises (returns `none`) rather than
storing the empty name. -/
theorem clm_C7_counterexample :
    stripChars ("=x".data) = [] ∧
    (Package.mk0 "p").parse_deps [(some "depends", ["=x"])] = Option.none :=
  ⟨by decide, by decide⟩

/-- Witness for C7 on a two-value dependency mapping. -/
theorem clm_C7_witness :
    ∃ p', (Package.mk0 "p").parse_deps
        [(some "depends", ["glibc>=2.30", "zlib"])] = some p' ∧
      ∀ kv ∈ [((some "depends" : Option String), ["glibc>=2.30", "zlib"])],
        ∀ k, kv.1 = some k →
          p'.readSlot k =
            some (Attr.tup (kv.2.map fun v => (stripVersion v).getD "")) :=
  clm_C7.1 (Package.mk0 "p") [(some "depends", ["glibc>=2.30", "zlib"])]
    (by decide) (by decide)
    (by rintro kv hkv
        rw [List.mem_singleton] at hkv
        subst hkv
        exact ⟨"depends", rfl, by decide⟩)
    (by decide)

/-- Claim C8 (amended): a value line before any `%NAME%` marker is not
rejected: `alpm_parse` accumulates it under the null current-field key,
and the failure only surfaces later, when such a mapping is applied to
a Package (`setattr(self, None, ...)`). -/
theorem clm_C8 :
    (∀ (l : String) (ls : List String) (c : Char) (cs : List Char),
      pyStripChars l.data = c :: cs →
      ¬(c = '%' ∧ (c :: cs).getLast? = some '%') →
      ∃ vs, lookupA (alpm_parse (l :: ls)) Option.none =
        some (String.mk (c :: cs) :: vs))
    ∧ (Package.mk0 "q").parse_desc (alpm_parse ["foo"]) = Option.none := by
  constructor
  · intro l ls c cs hl hm
    unfold alpm_parse
    simp only [alpmParseGo, hl]
    rw [if_neg hm]
    apply alpmParseGo_lookupA Option.none ls Option.none _ (String.mk (c :: cs)) []
    simp [updEntries, lookupA]
  · decide

/-- Counterexample to C8 as stated: on the input whose only line is the
value `foo`, the parser does not reject — it returns a mapping holding
`foo` under the null key. -/
theorem clm_C8_counterexample :
    alpm_parse ["foo"] = [(Option.none, ["foo"])] ∧
    lookupA (alpm_parse ["foo"]) Option.none = some ["foo"] :=
  ⟨by decide, by decide⟩

/-- Witness for C8 at a concrete pre-marker value line. -/
theorem clm_C8_witness :
    ∃ vs, lookupA (alpm_parse ["foo", "bar"]) Option.none =
      some (String.mk ['f', 'o', 'o'] :: vs) :=
  clm_C8.1 "foo" ["bar"] 'f' ['o', 'o'] (by decide) (by decide)

/-- Claim C9 (amended): `parse_desc` stores the full value sequence for
`groups` and only the first value for every other schema field; an
unknown field name is not ignored — it makes `parse_desc` fail with an
`AttributeError` (see the counterexample), as does a null field key. -/
theorem clm_C9 :
    (∀ (p : Package) (es : Entries), p.hasSchema →
      (es.map Prod.fst).Nodup →
      (∀ kv ∈ es, ∃ k, kv.1 = some k ∧ k ∈ slotNames) →
      (∀ kv ∈ es, kv.2 ≠ []) →
      ∃ p', p.parse_desc es = some p' ∧
        ∀ kv ∈ es, ∀ k, kv.1 = some k →
          p'.readSlot k = some (if k = "groups" then Attr.tup kv.2
            else Attr.str kv.2.headI))
    ∧ (Package.mk0 "p").parse_desc [(Option.none, ["v"])] = Option.none :=
  ⟨fun p es => parse_desc_spec es p, by decide⟩

/-- Counterexample to C9 as stated: an unknown field name `bogus` is not
ignored — `parse_desc` fails on it. -/
theorem clm_C9_counterexample :
    (Package.mk0 "p").parse_desc [(some "bogus", ["x"])] = Option.none := by
  decide

/-- Witness for C9 on a mapping holding `groups` and one single-valued
field. -/
theorem clm_C9_witness :
    ∃ p', (Package.mk0 "p").parse_desc
        [(some "groups", ["base", "extra"]), (some "version", ["1.0"])] =
          some p' ∧
      ∀ kv ∈ [((some "groups" : Option String), ["base", "extra"]),
              (some "version", ["1.0"])],
        ∀ k, kv.1 = some k →
          p'.readSlot k = some (if k = "groups" then Attr.tup kv.2
            else Attr.str kv.2.headI) :=
  clm_C9.1 (Package.mk0 "p")
    [(some "groups", ["base", "extra"]), (some "version", ["1.0"])]
    (by decide) (by decide)
    (by rintro kv hkv
        rcases List.mem_cons.mp hkv with rfl | hkv
        · exact ⟨"groups", rfl, by decide⟩
        · rw [List.mem_singleton] at hkv
          subst hkv
          exact ⟨"version", rfl, by decide⟩)
    (by decide)

/-- Claim C10: after index construction, every package name in any
value list of the groups or provides index is a key of the same
catalog's packages dict; consequently a repo built by `initialize_db`'s
index loop is well-formed and `resolve_name` on well-formed repos never
raises the dereference `KeyError`. -/
theorem clm_C10 :
    (∀ (pkgs : List (String × Package))
        (g p : List (String × List String)),
      build_indices pkgs [] [] = some (g, p) →
      idxSubsetKeys g pkgs = true ∧ idxSubsetKeys p pkgs = true)
    ∧ (∀ (nm ar : String) (pkgs : List (String × Package)) (r : Repo),
        Repo.ofPackages nm ar pkgs = some r → r.WF)
    ∧ ∀ (m : Mirror) (s : String) (imp : Bool), (∀ r ∈ m.repos, r.WF) →
        isKeyError (m.resolve_name s imp) = false := by
  refine ⟨?_, ?_, ?_⟩
  · intro pkgs g p h
    have hP : ∀ np ∈ pkgs, (lookupA pkgs np.1).isSome := fun np hnp =>
      lookupA_isSome_of_mem_keys pkgs np.1 (List.mem_map_of_mem Prod.fst hnp)
    have hinv := build_indices_inv (fun nm => (lookupA pkgs nm).isSome) pkgs
      [] [] g p hP (by simp) (by simp) h
    constructor
    · unfold idxSubsetKeys
      rw [List.all_eq_true]
      intro kv hkv
      rw [List.all_eq_true]
      intro n hn
      exact (hinv.1 kv hkv).2 n hn
    · unfold idxSubsetKeys
      rw [List.all_eq_true]
      intro kv hkv
      rw [List.all_eq_true]
      intro n hn
      exact (hinv.2 kv hkv).2 n hn
  · intro nm ar pkgs r h
    unfold Repo.ofPackages at h
    rw [Option.map_eq_some'] at h
    obtain ⟨gp, hgp, rfl⟩ := h
    have hP : ∀ np ∈ pkgs, (lookupA pkgs np.1).isSome := fun np hnp =>
      lookupA_isSome_of_mem_keys pkgs np.1 (List.mem_map_of_mem Prod.fst hnp)
    have hinv := build_indices_inv (fun nm2 => (lookupA pkgs nm2).isSome) pkgs
      [] [] gp.1 gp.2 hP (by simp) (by simp) hgp
    exact ⟨hinv.1, hinv.2⟩
  · intro m s imp hwf
    obtain ⟨res, hfin, hnd, heq⟩ := resolve_name_eq m s imp hwf
    rw [heq]
    split_ifs with hc
    · rfl
    · rfl

/-- Witness for C10 at the shadowing catalog's packages dict. -/
theorem clm_C10_witness :
    idxSubsetKeys [] pkgsFoo = true ∧
    idxSubsetKeys [("foo", ["bar"])] pkgsFoo = true :=
  clm_C10.1 pkgsFoo [] [("foo", ["bar"])] (by decide)

end Pac
